import Mathlib

/-!
Verification development for the `aicmt` diff decomposition and patch
reconstruction engine.  The definitions in the first part of this file are a
shallow embedding of the TypeScript source (`src/git.ts`, `src/openrouter.ts`,
`src/commands/commit.ts`): pure functions are translated directly, strings are
modelled through their character lists, and the effectful git operations of the
transactional apply loop are modelled as an explicit state machine whose
external operations succeed or fail according to an environment parameter.
-/

namespace Aicmt

/-! ## String helpers

JavaScript string primitives used by the source, modelled over the character
list of a Lean `String`. -/

/-- Character list of a string. -/
def chars (s : String) : List Char := s.data

/-- String built from a character list. -/
def ofChars (cs : List Char) : String := String.mk cs

/-- Model of `String.prototype.startsWith`. -/
def jsStartsWith (s pre : String) : Bool := (chars pre).isPrefixOf (chars s)

/-- Model of `String.prototype.trim`: strip leading and trailing whitespace. -/
def jsTrim (s : String) : String :=
  ofChars ((((chars s).dropWhile Char.isWhitespace).reverse.dropWhile Char.isWhitespace).reverse)

/-- Helper for `splitChar`: accumulates the current chunk in reverse. -/
def splitCharAux (c : Char) : List Char → List Char → List (List Char)
  | [], acc => [acc.reverse]
  | x :: xs, acc =>
    if x = c then acc.reverse :: splitCharAux c xs []
    else splitCharAux c xs (x :: acc)

/-- Model of `String.prototype.split` with a one-character separator. -/
def splitChar (c : Char) (cs : List Char) : List (List Char) := splitCharAux c cs []

/-- Model of `diff.split('\n')`. -/
def splitLines (s : String) : List String := (splitChar '\n' (chars s)).map ofChars

/-- Model of `Array.prototype.join` with a one-character separator, on
character lists. -/
def joinChar (c : Char) : List (List Char) → List Char
  | [] => []
  | [x] => x
  | x :: xs => x ++ c :: joinChar c xs

/-- Model of `lines.join('\n')`. -/
def joinNL (ls : List String) : String := ofChars (joinChar '\n' (ls.map chars))

/-! ## Diff parsing (`src/git.ts`) -/

/-- The `DiffHunk` record of `src/git.ts`. -/
structure DiffHunk where
  id : String
  file : String
  hunkIndex : Nat
  header : String
  content : List String
  fileHeader : List String
  summary : String
deriving DecidableEq

/-- Greedy-last split used to model the regex
`^diff --git a\/(.+) b\/(.+)$`: finds the last occurrence of `sep` that is
followed by at least one character, returning the parts before and after it. -/
def lastGreedy (sep : List Char) : List Char → Option (List Char × List Char)
  | [] => none
  | x :: xs =>
    match lastGreedy sep xs with
    | some (pre, post) => some (x :: pre, post)
    | none =>
      if sep.isPrefixOf (x :: xs) then
        let post := (x :: xs).drop sep.length
        if post = [] then none else some ([], post)
      else none

/-- The `extractFileFromDiffHeader` function of `src/git.ts`: the second
capture group of `^diff --git a\/(.+) b\/(.+)$` (both groups greedy and
non-empty), or the empty string when the line does not match. -/
def extractFileFromDiffHeader (line : String) : String :=
  let cs := chars line
  let pre := chars "diff --git a/"
  if pre.isPrefixOf cs then
    match lastGreedy (chars " b/") (cs.drop pre.length) with
    | some (g1, g2) => if g1 = [] then "" else ofChars g2
    | none => ""
  else ""

/-- The `extractHunkSummary` function of `src/git.ts` with its default
`maxLines = 5`; each kept line is truncated to 100 characters. -/
def extractHunkSummary (lines : List String) : String :=
  let changes :=
    (((lines.filter (fun l => jsStartsWith l "+" || jsStartsWith l "-")).filter
        (fun l => !(jsStartsWith l "+++") && !(jsStartsWith l "---"))).take 5).map
      (fun l => ofChars ((chars l).take 100))
  joinNL changes

/-- Mutable locals of the `parseDiffHunks` loop in `src/git.ts`. -/
structure ParseState where
  currentFile : String
  currentFileHeader : List String
  currentHunkIndex : Nat
  currentHunkLines : List String
  currentHunkHeader : String
  inHunk : Bool
  hunks : List DiffHunk
deriving DecidableEq

/-- The `flushHunk` closure of `parseDiffHunks`: emits the in-progress hunk
when it has content and a current file is known, then clears the hunk
accumulator. -/
def flushHunk (st : ParseState) : ParseState :=
  let hunks :=
    if st.currentHunkLines ≠ [] ∧ st.currentFile ≠ "" then
      st.hunks ++ [{
        id := st.currentFile ++ ":" ++ toString st.currentHunkIndex,
        file := st.currentFile,
        hunkIndex := st.currentHunkIndex,
        header := st.currentHunkHeader,
        content := st.currentHunkLines,
        fileHeader := st.currentFileHeader,
        summary := extractHunkSummary st.currentHunkLines }]
    else st.hunks
  { st with hunks := hunks, currentHunkLines := [], currentHunkHeader := "" }

/-- File-metadata line test of `parseDiffHunks` (the second branch of the
loop body). -/
def isFileHeaderLine (line : String) : Bool :=
  jsStartsWith line "index " || jsStartsWith line "--- " || jsStartsWith line "+++ " ||
  jsStartsWith line "new file mode" || jsStartsWith line "deleted file mode" ||
  jsStartsWith line "old mode" || jsStartsWith line "new mode"

/-- Loop body of `parseDiffHunks` for one line. -/
def stepLine (st : ParseState) (line : String) : ParseState :=
  if jsStartsWith line "diff --git " then
    let st := flushHunk st
    { st with currentFile := extractFileFromDiffHeader line,
              currentFileHeader := [line],
              currentHunkIndex := 0,
              inHunk := false }
  else if st.inHunk = false ∧ isFileHeaderLine line = true then
    { st with currentFileHeader := st.currentFileHeader ++ [line] }
  else if jsStartsWith line "@@" then
    let st := flushHunk st
    { st with currentHunkHeader := line,
              currentHunkLines := [line],
              currentHunkIndex := st.currentHunkIndex + 1,
              inHunk := true }
  else if st.inHunk = true then
    { st with currentHunkLines := st.currentHunkLines ++ [line] }
  else st

/-- Initial parser state. -/
def initParseState : ParseState :=
  { currentFile := "", currentFileHeader := [], currentHunkIndex := 0,
    currentHunkLines := [], currentHunkHeader := "", inHunk := false, hunks := [] }

/-- The `parseDiffHunks` loop over an explicit line list, ending with the
trailing flush. -/
def parseDiffLines (lines : List String) : List DiffHunk :=
  (flushHunk (lines.foldl stepLine initParseState)).hunks

/-- The `parseDiffHunks` function of `src/git.ts`. -/
def parseDiffHunks (diff : String) : List DiffHunk :=
  parseDiffLines (splitLines diff)

/-! ## Patch building (`src/git.ts`) -/

/-- One insertion into the `byFile` map of `buildPatchFromHunks`; a JS `Map`
preserves first-seen key order, modelled as an association list. -/
def insertHunkByFile (acc : List (String × List DiffHunk)) (h : DiffHunk) :
    List (String × List DiffHunk) :=
  match acc with
  | [] => [(h.file, [h])]
  | (f, hs) :: rest =>
    if f = h.file then (f, hs ++ [h]) :: rest
    else (f, hs) :: insertHunkByFile rest h

/-- The `byFile` grouping of `buildPatchFromHunks`: hunks grouped by file in
first-seen file order, each group in input order. -/
def groupByFile (hunks : List DiffHunk) : List (String × List DiffHunk) :=
  hunks.foldl insertHunkByFile []

/-- The `fileHunks.sort((a, b) => a.hunkIndex - b.hunkIndex)` call: JavaScript
array sort is stable, so it is modelled by stable insertion sort on the
`hunkIndex` key. -/
def sortHunks (hs : List DiffHunk) : List DiffHunk :=
  List.insertionSort (fun a b => a.hunkIndex ≤ b.hunkIndex) hs

/-- The `buildPatchFromHunks` function of `src/git.ts`. -/
def buildPatchFromHunks (hunks : List DiffHunk) : String :=
  if hunks = [] then "" else
  joinNL ((groupByFile hunks).flatMap (fun p =>
    match sortHunks p.2 with
    | [] => []
    | first :: rest =>
      joinNL first.fileHeader :: (first :: rest).map (fun h => joinNL h.content))) ++ "\n"

/-! ## Oracle response handling (`src/openrouter.ts`)

`JSON.parse` is a platform builtin; it is modelled by an explicit JSON value
type, with `Option Json` standing for the result of a `JSON.parse` call
(`none` when the call throws). -/

/-- JSON values, the possible results of `JSON.parse`. -/
inductive Json where
  | null
  | bool (b : Bool)
  | num (n : Int)
  | str (s : String)
  | arr (elems : List Json)
  | obj (fields : List (String × Json))

/-- Property lookup `j.k` on a parsed JSON value: defined only on objects;
for duplicate keys `JSON.parse` keeps the last occurrence. -/
def Json.getProp : Json → String → Option Json
  | .obj fields, k => (fields.reverse.find? (fun p => p.1 = k)).map (fun p => p.2)
  | _, _ => none

/-- The `stripCodeFences` function of `src/openrouter.ts`: trim, and when the
text starts with a backtick fence, drop the opening fence (with its optional
language tag and newline) and a closing fence, then trim again. -/
def stripCodeFences (text : String) : String :=
  let trimmed := jsTrim text
  if jsStartsWith trimmed "```" = false then trimmed
  else
    let cs := chars trimmed
    let afterOpen := ((cs.drop 3).dropWhile (fun c => c.isAlpha))
    let afterOpen := match afterOpen with
      | c :: rest => if c = '\n' then rest else afterOpen
      | [] => []
    let closing := chars "```"
    let afterClose :=
      if closing.isSuffixOf afterOpen = true then afterOpen.take (afterOpen.length - 3)
      else afterOpen
    jsTrim (ofChars afterClose)

/-- The `CommitGroup` record of `src/openrouter.ts`. -/
structure CommitGroup where
  files : List String
  message : String
deriving DecidableEq

/-- The element filter inside `parseCommitGroups`: an element is kept when it
is an object whose `files` property is a non-empty array and whose `message`
property is a string with non-empty trimmed text; kept elements retain only
the string entries of `files` and the trimmed message. -/
def keepGroupItem (j : Json) : Option CommitGroup :=
  match j.getProp "files", j.getProp "message" with
  | some (.arr files), some (.str message) =>
    if 0 < files.length ∧ (jsTrim message) ≠ "" then
      some { files := files.filterMap (fun f => match f with | .str s => some s | _ => none),
             message := jsTrim message }
    else none
  | _, _ => none

/-- The `parseCommitGroups` function of `src/openrouter.ts`, applied to the
result of `JSON.parse` on the fence-stripped response text (`none` when that
parse throws): non-arrays yield `null`, elements failing `keepGroupItem` are
dropped, and an empty remainder yields `null`. -/
def parseCommitGroups (parsed : Option Json) : Option (List CommitGroup) :=
  match parsed with
  | none => none
  | some (.arr items) =>
    let groups := items.filterMap keepGroupItem
    if groups = [] then none else some groups
  | some _ => none

/-- The in-place `groups[groups.length - 1].files.push(...missing)` mutation
of `generateCommitGroups`: append `extra` to the files of the last group. -/
def appendToLastGroup (extra : List String) : List CommitGroup → List CommitGroup
  | [] => []
  | [g] => [{ g with files := g.files ++ extra }]
  | g :: rest => g :: appendToLastGroup extra rest

/-- The completeness-repair step of `generateCommitGroups`
(`src/openrouter.ts` lines 400-409): input files not covered by any returned
group are appended to the last group. -/
def repairGroups (files : List String) (groups : List CommitGroup) : List CommitGroup :=
  let grouped := groups.flatMap (fun g => g.files)
  let missing := files.filter (fun f => !(grouped.contains f))
  if missing = [] then groups else appendToLastGroup missing groups

/-- The post-transport part of `generateCommitGroups` (`src/openrouter.ts`):
`ok` is `response.ok`, `content` is the result of `JSON.parse` on the
fence-stripped message content (`none` when unparseable, which also covers
empty content), and `files` is the changed-file list passed by the caller.
Errors are thrown as strings. -/
def generateCommitGroups (ok : Bool) (content : Option Json) (files : List String) :
    Except String (List CommitGroup) :=
  if ok = false then .error "OpenRouter error"
  else
    match parseCommitGroups content with
    | none => .error "Failed to parse commit groups from AI response"
    | some groups => .ok (repairGroups files groups)

/-! ## Transactional apply engine (`src/commands/commit.ts`)

The effectful loop of `runSplitHunksCommit` is modelled as a state machine.
The repository is a list of commit messages (the checkpoint records its value
before the loop, matching `getCurrentHead`) plus the patches applied to the
staging index.  The external git operations succeed or fail according to an
environment, indexed by how many calls of that kind have been issued. -/

/-- Shape of the `HunkCommitGroup` records consumed by `runSplitHunksCommit`
(an id list and a commit message), as used at its call sites. -/
structure HunkCommitGroup where
  hunkIds : List String
  message : String
deriving DecidableEq

/-- Abstract repository state: committed history and staged patches. -/
structure RepoState where
  commits : List String
  staged : List String
deriving DecidableEq

/-- Outcomes of the external git operations, injected per call index. -/
structure GitEnv where
  applyOk : Nat → Bool
  commitOk : Nat → Bool
  resetOk : Bool

/-- Loop-carried state of `runSplitHunksCommit`: the repository, the
`createdCount` counter, per-operation call counters, and the number of
skipped (warned-about) groups. -/
structure LoopState where
  repo : RepoState
  created : Nat
  applyCalls : Nat
  commitCalls : Nat
  skipped : Nat
deriving DecidableEq

/-- The `hunksMap.get` lookup of `runSplitHunksCommit`: a JS `Map` built by
successive `set` calls returns the last binding for a key. -/
def lookupHunk (hunks : List DiffHunk) (id : String) : Option DiffHunk :=
  hunks.reverse.find? (fun h => h.id = id)

/-- The `applyPatch` function of `src/git.ts` under the model: a blank patch
returns at once without invoking `git apply`; otherwise the external apply is
invoked (counted) and on success the patch is added to the staging index. -/
def applyPatchStep (env : GitEnv) (st : LoopState) (patch : String) : LoopState × Bool :=
  if jsTrim patch = "" then (st, true)
  else if env.applyOk st.applyCalls = true then
    ({ st with repo := { st.repo with staged := st.repo.staged ++ [patch] },
               applyCalls := st.applyCalls + 1 }, true)
  else ({ st with applyCalls := st.applyCalls + 1 }, false)

/-- The `commitWithMessage` call under the model: on success the staged
content becomes a new commit and the staging index empties. -/
def commitStep (env : GitEnv) (st : LoopState) (message : String) : LoopState × Bool :=
  if env.commitOk st.commitCalls = true then
    ({ st with repo := { commits := st.repo.commits ++ [message], staged := [] },
               commitCalls := st.commitCalls + 1,
               created := st.created + 1 }, true)
  else ({ st with commitCalls := st.commitCalls + 1 }, false)

/-- The `for (const group of groups)` loop of `runSplitHunksCommit`: per
group, ids are resolved through the hunk map (unknown ids drop out), a group
with no resolved hunks is skipped with a warning, otherwise the rebuilt patch
is applied and a commit is created; the first failure stops the loop.
Returns the final loop state and whether the loop completed. -/
def commitLoop (env : GitEnv) (hunks : List DiffHunk) :
    List HunkCommitGroup → LoopState → LoopState × Bool
  | [], st => (st, true)
  | g :: rest, st =>
    if g.hunkIds.filterMap (lookupHunk hunks) = [] then
      commitLoop env hunks rest { st with skipped := st.skipped + 1 }
    else
      let ar := applyPatchStep env st
        (buildPatchFromHunks (g.hunkIds.filterMap (lookupHunk hunks)))
      if ar.2 = false then (ar.1, false)
      else
        let cr := commitStep env ar.1 g.message
        if cr.2 = false then (cr.1, false)
        else commitLoop env hunks rest cr.1

/-- Outcome of a whole `runSplitHunksCommit` apply phase. -/
inductive SplitOutcome where
  | ok (created : Nat)
  | failed (createdAtFailure : Nat) (rollbackIssued : Bool) (rollbackSucceeded : Bool)
deriving DecidableEq

/-- Result of the apply phase: final repository plus outcome. -/
structure SplitResult where
  repo : RepoState
  skipped : Nat
  outcome : SplitOutcome
deriving DecidableEq

/-- The apply phase of `runSplitHunksCommit` (`src/commands/commit.ts` lines
297-341): record the checkpoint (`getCurrentHead`), run the commit loop, and
on failure roll back to the checkpoint via `resetToCommit` — but only when at
least one commit was created before the failure. -/
def runSplitHunksApply (env : GitEnv) (hunks : List DiffHunk)
    (groups : List HunkCommitGroup) (repo : RepoState) : SplitResult :=
  let checkpoint := repo.commits
  let res := commitLoop env hunks groups
    { repo := repo, created := 0, applyCalls := 0, commitCalls := 0, skipped := 0 }
  if res.2 = true then
    { repo := res.1.repo, skipped := res.1.skipped, outcome := .ok res.1.created }
  else if 0 < res.1.created then
    if env.resetOk = true then
      { repo := { commits := checkpoint, staged := [] }, skipped := res.1.skipped,
        outcome := .failed res.1.created true true }
    else
      { repo := res.1.repo, skipped := res.1.skipped,
        outcome := .failed res.1.created true false }
  else
    { repo := res.1.repo, skipped := res.1.skipped,
      outcome := .failed res.1.created false false }

/-! ## Valid unified diffs

Structured description of a valid unified diff, with a rendering function.
The validity conditions of `WfFile`/`WfDiff` state exactly the line-shape
assumptions of the unified-diff format in terms of the same line tests the
parser uses. -/

/-- One hunk of a structured diff: its range-header line and body lines. -/
structure SrcHunk where
  headerLine : String
  bodyLines : List String
deriving DecidableEq

/-- One file section of a structured diff: path, file-metadata lines
following the `diff --git` line, and hunks. -/
structure SrcFile where
  path : String
  headerTail : List String
  hunks : List SrcHunk
deriving DecidableEq

/-- The `diff --git a/<p> b/<p>` line for a path. -/
def dgLine (p : String) : String := "diff --git a/" ++ p ++ " b/" ++ p

/-- Lines of one hunk: header first, body after. -/
def srcHunkLines (hk : SrcHunk) : List String := hk.headerLine :: hk.bodyLines

/-- Lines of one file section. -/
def sectionLines (s : SrcFile) : List String :=
  dgLine s.path :: (s.headerTail ++ s.hunks.flatMap srcHunkLines)

/-- Lines of a whole structured diff. -/
def diffLines (ss : List SrcFile) : List String := ss.flatMap sectionLines

/-- Rendered text of a structured diff (lines joined by newlines). -/
def renderDiff (ss : List SrcFile) : String := joinNL (diffLines ss)

/-- Rendered text of a single file section: its per-file diff content. -/
def renderFileDiff (s : SrcFile) : String := joinNL (sectionLines s)

/-- A valid hunk body line: a single line that cannot be mistaken for a file
declaration or a range header. -/
abbrev WfBodyLine (l : String) : Prop :=
  '\n' ∉ chars l ∧ jsStartsWith l "diff --git " = false ∧ jsStartsWith l "@@" = false

/-- A valid file-metadata line: a single line of one of the metadata shapes,
not a file declaration or a range header. -/
abbrev WfHeaderLine (l : String) : Prop :=
  '\n' ∉ chars l ∧ isFileHeaderLine l = true ∧
  jsStartsWith l "diff --git " = false ∧ jsStartsWith l "@@" = false

/-- A valid hunk: a single-line `@@` range header (which is neither a file
declaration nor a metadata line) followed by valid body lines. -/
abbrev WfHunk (hk : SrcHunk) : Prop :=
  '\n' ∉ chars hk.headerLine ∧ jsStartsWith hk.headerLine "@@" = true ∧
  jsStartsWith hk.headerLine "diff --git " = false ∧
  isFileHeaderLine hk.headerLine = false ∧
  ∀ l ∈ hk.bodyLines, WfBodyLine l

/-- A valid file section: a non-empty single-line path recoverable from its
`diff --git` line, valid metadata lines, and at least one valid hunk. -/
abbrev WfFile (s : SrcFile) : Prop :=
  s.path ≠ "" ∧ '\n' ∉ chars s.path ∧
  extractFileFromDiffHeader (dgLine s.path) = s.path ∧
  (∀ l ∈ s.headerTail, WfHeaderLine l) ∧
  s.hunks ≠ [] ∧ (∀ hk ∈ s.hunks, WfHunk hk)

/-- A valid unified diff: valid file sections with pairwise-distinct paths. -/
abbrev WfDiff (ss : List SrcFile) : Prop :=
  (∀ s ∈ ss, WfFile s) ∧ (ss.map (fun s => s.path)).Nodup

/-- The `DiffHunk` that parsing emits for hunk `hk` of file `p` (file header
`H`) at one-based index `idx`. -/
def mkUnit (p : String) (H : List String) (idx : Nat) (hk : SrcHunk) : DiffHunk :=
  { id := p ++ ":" ++ toString idx,
    file := p,
    hunkIndex := idx,
    header := hk.headerLine,
    content := srcHunkLines hk,
    fileHeader := H,
    summary := extractHunkSummary (srcHunkLines hk) }

/-- Units emitted for a hunk list, starting after index `i`. -/
def hunksFor (p : String) (H : List String) (i : Nat) : List SrcHunk → List DiffHunk
  | [] => []
  | hk :: rest => mkUnit p H (i + 1) hk :: hunksFor p H (i + 1) rest

/-- All units a file section parses to. -/
def expectedHunks (s : SrcFile) : List DiffHunk :=
  hunksFor s.path (dgLine s.path :: s.headerTail) 0 s.hunks

/-- All units a structured diff parses to. -/
def expectedDiff (ss : List SrcFile) : List DiffHunk := ss.flatMap expectedHunks

instance : IsTotal DiffHunk (fun a b => a.hunkIndex ≤ b.hunkIndex) :=
  ⟨fun a b => Nat.le_total a.hunkIndex b.hunkIndex⟩

instance : IsTrans DiffHunk (fun a b => a.hunkIndex ≤ b.hunkIndex) :=
  ⟨fun _ _ _ hab hbc => Nat.le_trans hab hbc⟩

/-! ## Structural invariant of parsed units (claim C8) -/

/-- The claimed invariant of one parsed unit: non-empty content whose first
line is the unit's own range-header line, which begins with `@@`. -/
def ContentInv (h : DiffHunk) : Prop :=
  h.content ≠ [] ∧ h.content.head? = some h.header ∧ jsStartsWith h.header "@@" = true

/-- Invariant carried by the parser state: every emitted unit satisfies
`ContentInv`, the pending hunk accumulator (when non-empty) starts with the
pending header line (an `@@` line), and inside a hunk the accumulator is
non-empty. -/
def StInv (st : ParseState) : Prop :=
  (∀ h ∈ st.hunks, ContentInv h) ∧
  (st.currentHunkLines = [] ∨
    (st.currentHunkLines.head? = some st.currentHunkHeader ∧
     jsStartsWith st.currentHunkHeader "@@" = true)) ∧
  (st.inHunk = true → st.currentHunkLines ≠ [])

/-- Usability of one oracle response element, in the spec's terms: it carries
a non-empty identifier list and a non-empty (trimmed) message string. -/
def usableElem (j : Json) : Bool :=
  match j.getProp "files", j.getProp "message" with
  | some (.arr fs), some (.str m) => decide (0 < fs.length) && decide (jsTrim m ≠ "")
  | _, _ => false

/-- Whether a result of the oracle client is an error. -/
def isOracleError : Except String (List CommitGroup) → Bool
  | .error _ => true
  | .ok _ => false

instance : DecidableEq (Except String (List CommitGroup)) := fun a b =>
  match a, b with
  | .error e₁, .error e₂ =>
    if h : e₁ = e₂ then isTrue (h ▸ rfl) else isFalse (fun hc => h (Except.error.inj hc))
  | .ok v₁, .ok v₂ =>
    if h : v₁ = v₂ then isTrue (h ▸ rfl) else isFalse (fun hc => h (Except.ok.inj hc))
  | .error _, .ok _ => isFalse (fun hc => Except.noConfusion hc)
  | .ok _, .error _ => isFalse (fun hc => Except.noConfusion hc)

/-! ## Concrete fixtures used by counterexamples and witnesses -/

/-- Concrete hunk on file `a` with sequence index 1. -/
def cxA : DiffHunk :=
  { id := "a:1", file := "a", hunkIndex := 1, header := "@@ -1 +1 @@",
    content := ["@@ -1 +1 @@", "+x"], fileHeader := ["diff --git a/a b/a"], summary := "+x" }

/-- Concrete second hunk on file `a` with sequence index 2. -/
def cxA2 : DiffHunk :=
  { id := "a:2", file := "a", hunkIndex := 2, header := "@@ -9 +9 @@",
    content := ["@@ -9 +9 @@", "+y"], fileHeader := ["diff --git a/a b/a"], summary := "+y" }

/-- Concrete hunk on file `b` with sequence index 1. -/
def cxB : DiffHunk :=
  { id := "b:1", file := "b", hunkIndex := 1, header := "@@ -1 +1 @@",
    content := ["@@ -1 +1 @@", "+z"], fileHeader := ["diff --git a/b b/b"], summary := "+z" }

/-- Concrete hunk on file `c` with sequence index 1. -/
def cxC : DiffHunk :=
  { id := "c:1", file := "c", hunkIndex := 1, header := "@@ -1 +1 @@",
    content := ["@@ -1 +1 @@", "+w"], fileHeader := ["diff --git a/c b/c"], summary := "+w" }

/-- Environment whose second external apply call fails; everything else
succeeds and rollback succeeds. -/
def cEnvFail2 : GitEnv :=
  { applyOk := fun i => decide (i ≠ 1), commitOk := fun _ => true, resetOk := true }

/-- Environment in which every external operation succeeds. -/
def cEnvOk : GitEnv :=
  { applyOk := fun _ => true, commitOk := fun _ => true, resetOk := true }

/-- Three one-hunk groups addressing files `a`, `b`, `c`. -/
def cGroups3 : List HunkCommitGroup :=
  [{ hunkIds := ["a:1"], message := "m1" },
   { hunkIds := ["b:1"], message := "m2" },
   { hunkIds := ["c:1"], message := "m3" }]

/-- Initial repository with a single commit `c0` and clean staging area. -/
def cRepo0 : RepoState := { commits := ["c0"], staged := [] }

/-- Initial loop state over `cRepo0`. -/
def cSt0 : LoopState :=
  { repo := cRepo0, created := 0, applyCalls := 0, commitCalls := 0, skipped := 0 }

/-- First structured file fixture (`a.ts`, two hunks). -/
def sA : SrcFile :=
  { path := "a.ts", headerTail := ["index 111..222 100644", "--- a/a.ts", "+++ b/a.ts"],
    hunks := [{ headerLine := "@@ -1,2 +1,2 @@", bodyLines := [" ctx", "-old", "+new"] },
              { headerLine := "@@ -9,1 +9,1 @@", bodyLines := ["-x", "+y"] }] }

/-- Second structured file fixture (`b.ts`, one hunk). -/
def sB : SrcFile :=
  { path := "b.ts", headerTail := ["index 333..444 100644"],
    hunks := [{ headerLine := "@@ -1 +1 @@", bodyLines := ["+zz"] }] }

/-- Diff text introducing the same file path by two separate file header
lines. -/
def dupDiff : String :=
  "diff --git a/f b/f\n@@ -1 +1 @@\n x\ndiff --git a/f b/f\n@@ -1 +1 @@\n y"

/-- Oracle response assigning identifier `a` to two groups and mentioning an
identifier `c` outside the catalog. -/
def oracleDup : Json :=
  Json.arr [
    Json.obj [("files", Json.arr [Json.str "a", Json.str "c"]),
              ("message", Json.str "m1")],
    Json.obj [("files", Json.arr [Json.str "a", Json.str "b"]),
              ("message", Json.str "m2")]]

/-- Oracle response covering only identifier `a` of a two-identifier input. -/
def oracleUnder : Json :=
  Json.arr [Json.obj [("files", Json.arr [Json.str "a"]),
                      ("message", Json.str "m")]]

/-! ## String lemmas -/

theorem chars_ofChars (l : List Char) : chars (ofChars l) = l := rfl

theorem ofChars_chars (s : String) : ofChars (chars s) = s := rfl

theorem ofChars_inj {l₁ l₂ : List Char} (h : ofChars l₁ = ofChars l₂) : l₁ = l₂ := by
  have := congrArg chars h
  simpa [chars_ofChars] using this

theorem chars_append (s t : String) : chars (s ++ t) = chars s ++ chars t := rfl

theorem string_ext {s t : String} (h : chars s = chars t) : s = t := by
  cases s
  cases t
  exact congrArg String.mk h

theorem chars_nl : chars "\n" = ['\n'] := rfl

theorem splitCharAux_no_sep (c : Char) {l : List Char} (acc : List Char) (h : c ∉ l) :
    splitCharAux c l acc = [acc.reverse ++ l] := by
  induction l generalizing acc with
  | nil => simp [splitCharAux]
  | cons x xs ih =>
    have hx : ¬(x = c) := fun hxc => h (hxc ▸ List.mem_cons_self x xs)
    rw [splitCharAux, if_neg hx, ih (x :: acc) (fun hm => h (List.mem_cons_of_mem x hm))]
    simp

theorem splitCharAux_sep (c : Char) {l : List Char} (rest acc : List Char) (h : c ∉ l) :
    splitCharAux c (l ++ c :: rest) acc = (acc.reverse ++ l) :: splitCharAux c rest [] := by
  induction l generalizing acc with
  | nil => simp [splitCharAux]
  | cons x xs ih =>
    have hx : ¬(x = c) := fun hxc => h (hxc ▸ List.mem_cons_self x xs)
    rw [List.cons_append, splitCharAux, if_neg hx,
      ih (x :: acc) (fun hm => h (List.mem_cons_of_mem x hm))]
    simp

theorem joinChar_cons (c : Char) (l : List Char) {ls : List (List Char)} (h : ls ≠ []) :
    joinChar c (l :: ls) = l ++ c :: joinChar c ls := by
  cases ls with
  | nil => exact absurd rfl h
  | cons l₂ ls₂ => rfl

theorem splitChar_joinChar (c : Char) {ls : List (List Char)} (hne : ls ≠ [])
    (h : ∀ l ∈ ls, c ∉ l) : splitChar c (joinChar c ls) = ls := by
  induction ls with
  | nil => exact absurd rfl hne
  | cons l ls ih =>
    cases ls with
    | nil =>
      simp only [joinChar, splitChar]
      rw [splitCharAux_no_sep c [] (h l (List.mem_cons_self l []))]
      simp
    | cons l₂ ls₂ =>
      rw [joinChar_cons c l (by simp)]
      unfold splitChar
      rw [splitCharAux_sep c _ [] (h l (List.mem_cons_self l _))]
      simp only [List.reverse_nil, List.nil_append, List.cons.injEq, true_and]
      exact ih (by simp) (fun x hx => h x (List.mem_cons_of_mem l hx))

theorem splitLines_joinNL {ls : List String} (hne : ls ≠ [])
    (h : ∀ l ∈ ls, '\n' ∉ chars l) : splitLines (joinNL ls) = ls := by
  unfold splitLines joinNL
  rw [chars_ofChars, splitChar_joinChar '\n' (by simpa using hne)
    (by intro l hl; obtain ⟨s, hs, rfl⟩ := List.mem_map.mp hl; exact h s hs)]
  simp [Function.comp_def, ofChars_chars]

theorem joinNL_cons (l : String) {ls : List String} (h : ls ≠ []) :
    joinNL (l :: ls) = l ++ "\n" ++ joinNL ls := by
  apply string_ext
  unfold joinNL
  simp only [chars_append, chars_ofChars, List.map_cons]
  rw [joinChar_cons '\n' (chars l) (by simpa using h), chars_nl]
  simp

theorem joinChar_append (c : Char) {g h : List (List Char)} (hg : g ≠ []) (hh : h ≠ []) :
    joinChar c (g ++ h) = joinChar c g ++ c :: joinChar c h := by
  induction g with
  | nil => exact absurd rfl hg
  | cons x xs ih =>
    cases xs with
    | nil =>
      rw [List.singleton_append, joinChar_cons c x hh]
      rfl
    | cons y ys =>
      rw [List.cons_append, joinChar_cons c x (by simp),
        joinChar_cons c x (List.cons_ne_nil y ys), ih (List.cons_ne_nil y ys)]
      simp

theorem joinNL_append {a b : List String} (ha : a ≠ []) (hb : b ≠ []) :
    joinNL (a ++ b) = joinNL a ++ "\n" ++ joinNL b := by
  apply string_ext
  unfold joinNL
  simp only [chars_append, chars_ofChars, List.map_append]
  rw [joinChar_append '\n' (by simpa using ha) (by simpa using hb), chars_nl]
  simp

theorem joinNL_flatten {groups : List (List String)} (hne : groups ≠ [])
    (h : ∀ g ∈ groups, g ≠ []) :
    joinNL (groups.map joinNL) = joinNL groups.flatten := by
  induction groups with
  | nil => exact absurd rfl hne
  | cons g gs ih =>
    cases gs with
    | nil => simp [joinNL, chars_ofChars, joinChar]
    | cons g₂ gs₂ =>
      have hg : g ≠ [] := h g (List.mem_cons_self g _)
      have hflat : (g₂ :: gs₂).flatten ≠ [] := by
        have hg₂ : g₂ ≠ [] := h g₂ (by simp)
        cases hc : g₂ with
        | nil => exact absurd hc hg₂
        | cons x xs => simp [hc]
      calc joinNL (List.map joinNL (g :: g₂ :: gs₂))
          = joinNL (joinNL g :: List.map joinNL (g₂ :: gs₂)) := by rw [List.map_cons]
        _ = joinNL g ++ "\n" ++ joinNL (List.map joinNL (g₂ :: gs₂)) :=
            joinNL_cons _ (by simp)
        _ = joinNL g ++ "\n" ++ joinNL ((g₂ :: gs₂).flatten) := by
            rw [ih (by simp) (fun x hx => h x (List.mem_cons_of_mem g hx))]
        _ = joinNL (g ++ (g₂ :: gs₂).flatten) := (joinNL_append hg hflat).symm
        _ = joinNL ((g :: g₂ :: gs₂).flatten) := by simp

/-! ## Parser state lemmas -/

@[simp]
theorem flushHunk_currentFile (st : ParseState) :
    (flushHunk st).currentFile = st.currentFile := rfl

@[simp]
theorem flushHunk_currentFileHeader (st : ParseState) :
    (flushHunk st).currentFileHeader = st.currentFileHeader := rfl

@[simp]
theorem flushHunk_currentHunkIndex (st : ParseState) :
    (flushHunk st).currentHunkIndex = st.currentHunkIndex := rfl

@[simp]
theorem flushHunk_currentHunkLines (st : ParseState) :
    (flushHunk st).currentHunkLines = [] := rfl

@[simp]
theorem flushHunk_currentHunkHeader (st : ParseState) :
    (flushHunk st).currentHunkHeader = "" := rfl

@[simp]
theorem flushHunk_inHunk (st : ParseState) : (flushHunk st).inHunk = st.inHunk := rfl

theorem flushHunk_hunks_of_empty (st : ParseState) (h : st.currentHunkLines = []) :
    (flushHunk st).hunks = st.hunks := by
  simp [flushHunk, h]

theorem flushHunk_hunks_of_pending (st : ParseState) (h1 : st.currentHunkLines ≠ [])
    (h2 : st.currentFile ≠ "") :
    (flushHunk st).hunks = st.hunks ++ [{
      id := st.currentFile ++ ":" ++ toString st.currentHunkIndex,
      file := st.currentFile,
      hunkIndex := st.currentHunkIndex,
      header := st.currentHunkHeader,
      content := st.currentHunkLines,
      fileHeader := st.currentFileHeader,
      summary := extractHunkSummary st.currentHunkLines }] := by
  simp [flushHunk, h1, h2]

theorem stepLine_dg (st : ParseState) (line : String)
    (h : jsStartsWith line "diff --git " = true) :
    stepLine st line =
      { flushHunk st with
          currentFile := extractFileFromDiffHeader line,
          currentFileHeader := [line],
          currentHunkIndex := 0,
          inHunk := false } := by
  simp [stepLine, h]

theorem stepLine_header (st : ParseState) (line : String)
    (hdg : jsStartsWith line "diff --git " = false)
    (hin : st.inHunk = false) (hfh : isFileHeaderLine line = true) :
    stepLine st line = { st with currentFileHeader := st.currentFileHeader ++ [line] } := by
  simp [stepLine, hdg, hin, hfh]

theorem stepLine_at (st : ParseState) (line : String)
    (hdg : jsStartsWith line "diff --git " = false)
    (hfh : ¬(st.inHunk = false ∧ isFileHeaderLine line = true))
    (hat : jsStartsWith line "@@" = true) :
    stepLine st line =
      { flushHunk st with
          currentHunkHeader := line,
          currentHunkLines := [line],
          currentHunkIndex := st.currentHunkIndex + 1,
          inHunk := true } := by
  simp [stepLine, hdg, hfh, hat]

theorem stepLine_content (st : ParseState) (line : String)
    (hdg : jsStartsWith line "diff --git " = false)
    (hat : jsStartsWith line "@@" = false)
    (hin : st.inHunk = true) :
    stepLine st line = { st with currentHunkLines := st.currentHunkLines ++ [line] } := by
  simp [stepLine, hdg, hat, hin]

theorem foldl_content (body : List String) (hbody : ∀ l ∈ body, WfBodyLine l) :
    ∀ (st : ParseState), st.inHunk = true →
      body.foldl stepLine st = { st with currentHunkLines := st.currentHunkLines ++ body } := by
  induction body with
  | nil => intro st _; simp
  | cons l rest ih =>
    intro st hin
    obtain ⟨hnl, hdg, hat⟩ := hbody l (List.mem_cons_self l rest)
    rw [List.foldl_cons, stepLine_content st l hdg hat hin,
      ih (fun x hx => hbody x (List.mem_cons_of_mem l hx))
        { st with currentHunkLines := st.currentHunkLines ++ [l] } hin]
    cases st
    simp

theorem foldl_headerLines (hs : List String) (h : ∀ l ∈ hs, WfHeaderLine l) :
    ∀ (st : ParseState), st.inHunk = false →
      hs.foldl stepLine st = { st with currentFileHeader := st.currentFileHeader ++ hs } := by
  induction hs with
  | nil => intro st _; simp
  | cons l rest ih =>
    intro st hin
    obtain ⟨hnl, hfh, hdg, hat⟩ := h l (List.mem_cons_self l rest)
    rw [List.foldl_cons, stepLine_header st l hdg hin hfh,
      ih (fun x hx => h x (List.mem_cons_of_mem l hx))
        { st with currentFileHeader := st.currentFileHeader ++ [l] } hin]
    cases st
    simp

/-! ## Section processing lemmas -/

theorem chars_dgLine (p : String) :
    chars (dgLine p) = chars "diff --git a/" ++ chars p ++ chars " b/" ++ chars p := by
  simp [dgLine, chars_append, List.append_assoc]

theorem jsStartsWith_dgLine (p : String) : jsStartsWith (dgLine p) "diff --git " = true := by
  unfold jsStartsWith
  rw [List.isPrefixOf_iff_prefix, chars_dgLine,
    show chars "diff --git a/" = chars "diff --git " ++ ['a', '/'] from by decide]
  simp only [List.append_assoc]
  exact List.prefix_append _ _

theorem nl_not_mem_dgLine {p : String} (h : '\n' ∉ chars p) : '\n' ∉ chars (dgLine p) := by
  rw [chars_dgLine]
  intro hm
  simp only [List.append_assoc, List.mem_append] at hm
  rcases hm with h1 | h2 | h3 | h4
  · exact absurd h1 (by decide)
  · exact h h2
  · exact absurd h3 (by decide)
  · exact h h4

theorem foldl_srcHunk (hk : SrcHunk) (hwf : WfHunk hk) (st : ParseState) :
    (srcHunkLines hk).foldl stepLine st =
      { currentFile := st.currentFile,
        currentFileHeader := st.currentFileHeader,
        currentHunkIndex := st.currentHunkIndex + 1,
        currentHunkLines := srcHunkLines hk,
        currentHunkHeader := hk.headerLine,
        inHunk := true,
        hunks := (flushHunk st).hunks } := by
  obtain ⟨hnl, hat, hdg, hfh, hbody⟩ := hwf
  unfold srcHunkLines
  rw [List.foldl_cons, stepLine_at st hk.headerLine hdg (by simp [hfh]) hat,
    foldl_content hk.bodyLines hbody _ rfl]
  simp [srcHunkLines]

theorem foldl_srcHunks {p : String} (hp : p ≠ "") :
    ∀ (hks : List SrcHunk) (hne : hks ≠ []), (∀ hk ∈ hks, WfHunk hk) →
    ∀ (st : ParseState), st.currentFile = p →
      (hks.flatMap srcHunkLines).foldl stepLine st =
        { currentFile := p,
          currentFileHeader := st.currentFileHeader,
          currentHunkIndex := st.currentHunkIndex + hks.length,
          currentHunkLines := srcHunkLines (hks.getLast hne),
          currentHunkHeader := (hks.getLast hne).headerLine,
          inHunk := true,
          hunks := (flushHunk st).hunks ++
            hunksFor p st.currentFileHeader st.currentHunkIndex hks.dropLast } := by
  intro hks
  induction hks with
  | nil => intro hne; exact absurd rfl hne
  | cons hk rest ih =>
    intro hne hwf st hfile
    cases rest with
    | nil =>
      simp only [List.flatMap_cons, List.flatMap_nil, List.append_nil]
      rw [foldl_srcHunk hk (hwf hk (by simp)) st]
      simp [hunksFor, hfile, List.getLast_singleton]
    | cons hk₂ rest₂ =>
      rw [List.flatMap_cons, List.foldl_append, foldl_srcHunk hk (hwf hk (by simp)) st,
        ih (List.cons_ne_nil hk₂ rest₂) (fun x hx => hwf x (List.mem_cons_of_mem hk hx))
          { currentFile := st.currentFile,
            currentFileHeader := st.currentFileHeader,
            currentHunkIndex := st.currentHunkIndex + 1,
            currentHunkLines := srcHunkLines hk,
            currentHunkHeader := hk.headerLine,
            inHunk := true,
            hunks := (flushHunk st).hunks } hfile]
      subst hfile
      rw [flushHunk_hunks_of_pending
        { currentFile := st.currentFile,
          currentFileHeader := st.currentFileHeader,
          currentHunkIndex := st.currentHunkIndex + 1,
          currentHunkLines := srcHunkLines hk,
          currentHunkHeader := hk.headerLine,
          inHunk := true,
          hunks := (flushHunk st).hunks } (by simp [srcHunkLines]) hp]
      simp only [ParseState.mk.injEq, List.dropLast_cons₂, hunksFor, mkUnit,
        List.getLast_cons, List.length_cons, List.append_assoc, List.cons_append,
        List.nil_append, List.singleton_append, srcHunkLines, true_and, and_true]
      have hgl : (hk :: hk₂ :: rest₂).getLast hne
          = (hk₂ :: rest₂).getLast (List.cons_ne_nil hk₂ rest₂) := List.getLast_cons _
      exact ⟨by omega, by rw [hgl], by rw [hgl]⟩

theorem hunksFor_last (p : String) (H : List String) :
    ∀ (l : List SrcHunk) (h : l ≠ []) (i : Nat),
      hunksFor p H i l.dropLast ++ [mkUnit p H (i + l.length) (l.getLast h)]
        = hunksFor p H i l := by
  intro l
  induction l with
  | nil => intro h; exact absurd rfl h
  | cons hk rest ih =>
    intro h i
    cases rest with
    | nil => simp [hunksFor, List.getLast_singleton]
    | cons hk₂ rest₂ =>
      rw [List.dropLast_cons₂,
        List.getLast_cons (List.cons_ne_nil hk₂ rest₂),
        show i + (hk :: hk₂ :: rest₂).length = (i + 1) + (hk₂ :: rest₂).length from by
          simp; omega]
      simp only [hunksFor, List.cons_append, List.cons.injEq, true_and]
      exact ih (List.cons_ne_nil hk₂ rest₂) (i + 1)

theorem foldl_section (s : SrcFile) (hwf : WfFile s) (hne : s.hunks ≠ []) (st : ParseState) :
    (sectionLines s).foldl stepLine st =
      { currentFile := s.path,
        currentFileHeader := dgLine s.path :: s.headerTail,
        currentHunkIndex := s.hunks.length,
        currentHunkLines := srcHunkLines (s.hunks.getLast hne),
        currentHunkHeader := (s.hunks.getLast hne).headerLine,
        inHunk := true,
        hunks := (flushHunk st).hunks ++
          hunksFor s.path (dgLine s.path :: s.headerTail) 0 s.hunks.dropLast } := by
  obtain ⟨hp, hpnl, hex, hht, hne', hhk⟩ := hwf
  unfold sectionLines
  rw [List.foldl_cons, stepLine_dg st (dgLine s.path) (jsStartsWith_dgLine s.path), hex,
    List.foldl_append,
    foldl_headerLines s.headerTail hht
      { flushHunk st with
          currentFile := s.path,
          currentFileHeader := [dgLine s.path],
          currentHunkIndex := 0,
          inHunk := false } rfl,
    foldl_srcHunks hp s.hunks hne hhk
      { flushHunk st with
          currentFile := s.path,
          currentFileHeader := [dgLine s.path] ++ s.headerTail,
          currentHunkIndex := 0,
          inHunk := false } rfl]
  rw [flushHunk_hunks_of_empty
      { flushHunk st with
          currentFile := s.path,
          currentFileHeader := [dgLine s.path] ++ s.headerTail,
          currentHunkIndex := 0,
          inHunk := false } (by simp)]
  simp

theorem parse_sections : ∀ (ss : List SrcFile), (∀ s ∈ ss, WfFile s) →
    ∀ st, (flushHunk ((ss.flatMap sectionLines).foldl stepLine st)).hunks
      = (flushHunk st).hunks ++ ss.flatMap expectedHunks := by
  intro ss
  induction ss with
  | nil => intro _ st; simp
  | cons s rest ih =>
    intro hwf st
    have hwfs : WfFile s := hwf s (List.mem_cons_self s rest)
    have hne : s.hunks ≠ [] := hwfs.2.2.2.2.1
    have hp : s.path ≠ "" := hwfs.1
    rw [List.flatMap_cons, List.foldl_append, foldl_section s hwfs hne st,
      ih (fun x hx => hwf x (List.mem_cons_of_mem s hx)) _]
    rw [flushHunk_hunks_of_pending _ (by simp [srcHunkLines]) hp]
    rw [List.append_assoc]
    have hlast := hunksFor_last s.path (dgLine s.path :: s.headerTail) s.hunks hne 0
    simp only [Nat.zero_add] at hlast
    simp only [List.flatMap_cons, expectedHunks, mkUnit, srcHunkLines, List.append_assoc]
    rw [← hlast]
    simp [mkUnit, srcHunkLines]

theorem sectionLines_no_nl {s : SrcFile} (hwf : WfFile s) :
    ∀ l ∈ sectionLines s, '\n' ∉ chars l := by
  obtain ⟨hp, hpnl, hex, hht, hne', hhk⟩ := hwf
  intro l hl
  unfold sectionLines at hl
  rcases List.mem_cons.mp hl with rfl | hl
  · exact nl_not_mem_dgLine hpnl
  rcases List.mem_append.mp hl with hl | hl
  · exact (hht l hl).1
  obtain ⟨hk, hhkmem, hlmem⟩ := List.mem_flatMap.mp hl
  obtain ⟨hnl, _, _, _, hbody⟩ := hhk hk hhkmem
  rcases List.mem_cons.mp hlmem with rfl | hlmem
  · exact hnl
  · exact (hbody l hlmem).1

theorem diffLines_ne_nil {ss : List SrcFile} (hne : ss ≠ []) : diffLines ss ≠ [] := by
  cases ss with
  | nil => exact absurd rfl hne
  | cons s rest => simp [diffLines, sectionLines]

theorem parseDiffHunks_renderDiff {ss : List SrcFile} (hwf : WfDiff ss) (hne : ss ≠ []) :
    parseDiffHunks (renderDiff ss) = expectedDiff ss := by
  unfold parseDiffHunks renderDiff
  rw [splitLines_joinNL (diffLines_ne_nil hne)
    (by
      intro l hl
      obtain ⟨s, hs, hls⟩ := List.mem_flatMap.mp hl
      exact sectionLines_no_nl (hwf.1 s hs) l hls)]
  unfold parseDiffLines diffLines
  rw [parse_sections ss hwf.1 initParseState]
  simp [flushHunk_hunks_of_empty, initParseState, expectedDiff, flushHunk]

/-! ## Patch builder lemmas -/

theorem foldl_insertHunkByFile_same (p : String) :
    ∀ (l : List DiffHunk), (∀ h ∈ l, h.file = p) → ∀ (hs : List DiffHunk),
      l.foldl insertHunkByFile [(p, hs)] = [(p, hs ++ l)] := by
  intro l
  induction l with
  | nil => intro _ hs; simp
  | cons h t ih =>
    intro hall hs
    rw [List.foldl_cons,
      show insertHunkByFile [(p, hs)] h = [(p, hs ++ [h])] from by
        simp [insertHunkByFile, (hall h (List.mem_cons_self h t)).symm],
      ih (fun x hx => hall x (List.mem_cons_of_mem h hx)) (hs ++ [h])]
    simp

theorem groupByFile_single {p : String} {l : List DiffHunk} (hne : l ≠ [])
    (hall : ∀ h ∈ l, h.file = p) : groupByFile l = [(p, l)] := by
  cases l with
  | nil => exact absurd rfl hne
  | cons h t =>
    unfold groupByFile
    rw [List.foldl_cons,
      show insertHunkByFile [] h = [(h.file, [h])] from rfl,
      hall h (List.mem_cons_self h t),
      foldl_insertHunkByFile_same p t (fun x hx => hall x (List.mem_cons_of_mem h hx)) [h]]
    simp

theorem eq_of_perm_of_sorted_of_nodup_keys {α : Type} (key : α → Nat) :
    ∀ (l₁ l₂ : List α), l₁.Perm l₂ →
      l₁.Pairwise (fun a b => key a ≤ key b) → l₂.Pairwise (fun a b => key a ≤ key b) →
      (l₁.map key).Nodup → l₁ = l₂ := by
  intro l₁
  induction l₁ with
  | nil => intro l₂ hp _ _ _; exact hp.nil_eq
  | cons a t ih =>
    intro l₂ hp hs₁ hs₂ hnd
    cases l₂ with
    | nil =>
      have := hp.length_eq
      simp at this
    | cons b t₂ =>
      have hab : a = b := by
        by_contra hne
        have hbmem : b ∈ a :: t := hp.mem_iff.mpr (List.mem_cons_self b t₂)
        have hamem : a ∈ b :: t₂ := hp.mem_iff.mp (List.mem_cons_self a t)
        have hb : b ∈ t := by
          rcases List.mem_cons.mp hbmem with hcase | hcase
          · exact absurd hcase.symm hne
          · exact hcase
        have ha : a ∈ t₂ := by
          rcases List.mem_cons.mp hamem with hcase | hcase
          · exact absurd hcase hne
          · exact hcase
        have h₁ : key a ≤ key b := (List.pairwise_cons.mp hs₁).1 b hb
        have h₂ : key b ≤ key a := (List.pairwise_cons.mp hs₂).1 a ha
        have heq : key b = key a := Nat.le_antisymm h₂ h₁
        have hmem : key a ∈ t.map key := heq ▸ List.mem_map_of_mem key hb
        exact (List.nodup_cons.mp (by simpa using hnd)).1 hmem
      subst hab
      rw [ih t₂ hp.cons_inv (List.pairwise_cons.mp hs₁).2 (List.pairwise_cons.mp hs₂).2
        (List.nodup_cons.mp (by simpa using hnd)).2]

theorem sortHunks_perm (l : List DiffHunk) : (sortHunks l).Perm l :=
  List.perm_insertionSort _ l

theorem sortHunks_sorted (l : List DiffHunk) :
    (sortHunks l).Pairwise (fun a b => a.hunkIndex ≤ b.hunkIndex) :=
  List.sorted_insertionSort _ l

theorem sortHunks_reverse {l : List DiffHunk}
    (hnd : (l.map (fun h => h.hunkIndex)).Nodup) : sortHunks l.reverse = sortHunks l := by
  apply eq_of_perm_of_sorted_of_nodup_keys (fun h => h.hunkIndex)
  · exact ((sortHunks_perm l.reverse).trans (l.reverse_perm)).trans (sortHunks_perm l).symm
  · exact sortHunks_sorted l.reverse
  · exact sortHunks_sorted l
  · exact (((sortHunks_perm l.reverse).trans (l.reverse_perm)).map
      (fun h => h.hunkIndex)).nodup_iff.mpr hnd

theorem hunksFor_file (p : String) (H : List String) :
    ∀ (l : List SrcHunk) (i : Nat), ∀ h ∈ hunksFor p H i l, h.file = p := by
  intro l
  induction l with
  | nil => intro i h hm; simp [hunksFor] at hm
  | cons hk rest ih =>
    intro i h hm
    rcases List.mem_cons.mp hm with rfl | hm
    · rfl
    · exact ih (i + 1) h hm

theorem hunksFor_indices (p : String) (H : List String) :
    ∀ (l : List SrcHunk) (i : Nat),
      (hunksFor p H i l).map (fun h => h.hunkIndex) = List.range' (i + 1) l.length := by
  intro l
  induction l with
  | nil => intro i; simp [hunksFor]
  | cons hk rest ih =>
    intro i
    rw [show (hk :: rest).length = rest.length + 1 from rfl, List.range'_succ]
    simp only [hunksFor, List.map_cons, mkUnit]
    rw [ih (i + 1)]

theorem hunksFor_contents (p : String) (H : List String) :
    ∀ (l : List SrcHunk) (i : Nat),
      (hunksFor p H i l).map (fun h => h.content) = l.map srcHunkLines := by
  intro l
  induction l with
  | nil => intro i; simp [hunksFor]
  | cons hk rest ih =>
    intro i
    simp only [hunksFor, List.map_cons, mkUnit]
    rw [ih (i + 1)]

theorem hunksFor_sorted (p : String) (H : List String) (l : List SrcHunk) (i : Nat) :
    (hunksFor p H i l).Pairwise (fun a b => a.hunkIndex ≤ b.hunkIndex) := by
  have hmap := hunksFor_indices p H l i
  have : ((hunksFor p H i l).map (fun h => h.hunkIndex)).Pairwise (fun a b => a ≤ b) := by
    rw [hmap]
    exact (List.pairwise_lt_range' _ _ 1).imp (fun hab => Nat.le_of_lt hab)
  exact (List.pairwise_map.mp this)

theorem hunksFor_nodup_indices (p : String) (H : List String) (l : List SrcHunk) (i : Nat) :
    ((hunksFor p H i l).map (fun h => h.hunkIndex)).Nodup := by
  rw [hunksFor_indices p H l i]
  exact List.nodup_range' _ _

theorem hunksFor_ne_nil (p : String) (H : List String) {l : List SrcHunk} (hne : l ≠ [])
    (i : Nat) : hunksFor p H i l ≠ [] := by
  cases l with
  | nil => exact absurd rfl hne
  | cons hk rest => simp [hunksFor]

theorem buildPatch_expectedHunks {s : SrcFile} (hwf : WfFile s) :
    buildPatchFromHunks (expectedHunks s) = renderFileDiff s ++ "\n" := by
  obtain ⟨hp, hpnl, hex, hht, hne, hhk⟩ := hwf
  unfold buildPatchFromHunks
  rw [if_neg (show ¬expectedHunks s = [] from
    hunksFor_ne_nil s.path (dgLine s.path :: s.headerTail) hne 0)]
  rw [groupByFile_single (show expectedHunks s ≠ [] from hunksFor_ne_nil s.path _ hne 0)
    (show ∀ h ∈ expectedHunks s, h.file = s.path from
      hunksFor_file s.path (dgLine s.path :: s.headerTail) s.hunks 0)]
  rw [List.flatMap_cons, List.flatMap_nil, List.append_nil]
  rw [show sortHunks (expectedHunks s) = expectedHunks s from
    List.Sorted.insertionSort_eq (hunksFor_sorted s.path _ s.hunks 0)]
  cases hhunks : s.hunks with
  | nil => exact absurd hhunks hne
  | cons hk rest =>
    have hexp : expectedHunks s
        = mkUnit s.path (dgLine s.path :: s.headerTail) 1 hk
          :: hunksFor s.path (dgLine s.path :: s.headerTail) 1 rest := by
      unfold expectedHunks
      rw [hhunks]
      rfl
    rw [hexp]
    show joinNL (joinNL (dgLine s.path :: s.headerTail) ::
        List.map (fun h => joinNL h.content)
          (hunksFor s.path (dgLine s.path :: s.headerTail) 0 (hk :: rest))) ++ "\n"
      = renderFileDiff s ++ "\n"
    rw [← hhunks]
    have hcontents : List.map (fun h => joinNL h.content)
        (hunksFor s.path (dgLine s.path :: s.headerTail) 0 s.hunks)
        = List.map joinNL (s.hunks.map srcHunkLines) := by
      calc List.map (fun h => joinNL h.content)
            (hunksFor s.path (dgLine s.path :: s.headerTail) 0 s.hunks)
          = List.map joinNL ((hunksFor s.path (dgLine s.path :: s.headerTail) 0
              s.hunks).map (fun h => h.content)) := by rw [List.map_map]; rfl
        _ = List.map joinNL (s.hunks.map srcHunkLines) := by
            rw [hunksFor_contents s.path (dgLine s.path :: s.headerTail) s.hunks 0]
    rw [hcontents,
      show joinNL (dgLine s.path :: s.headerTail) :: List.map joinNL (s.hunks.map srcHunkLines)
        = List.map joinNL ((dgLine s.path :: s.headerTail) :: s.hunks.map srcHunkLines) from by
      simp]
    rw [joinNL_flatten (by simp) ?hgroups]
    case hgroups =>
      intro g hg
      rcases List.mem_cons.mp hg with rfl | hg
      · simp
      · obtain ⟨hk2, _, rfl⟩ := List.mem_map.mp hg
        simp [srcHunkLines]
    unfold renderFileDiff sectionLines
    rw [show ((dgLine s.path :: s.headerTail) :: s.hunks.map srcHunkLines).flatten
        = dgLine s.path :: (s.headerTail ++ s.hunks.flatMap srcHunkLines) from by
      simp [List.flatMap_def]]

theorem filter_expectedDiff : ∀ (ss : List SrcFile), WfDiff ss → ∀ s ∈ ss,
    (expectedDiff ss).filter (fun h => h.file == s.path) = expectedHunks s := by
  intro ss
  induction ss with
  | nil => intro _ s hs; simp at hs
  | cons t rest ih =>
    intro hwf s hs
    have hnd := hwf.2
    simp only [List.map_cons, List.nodup_cons] at hnd
    unfold expectedDiff
    rw [List.flatMap_cons, List.filter_append]
    rcases List.mem_cons.mp hs with rfl | hs
    · rw [List.filter_eq_self.mpr ?hself, List.filter_eq_nil_iff.mpr ?hrest, List.append_nil]
      case hself =>
        intro h hm
        exact beq_iff_eq.mpr (hunksFor_file s.path _ s.hunks 0 h hm)
      case hrest =>
        intro h hm hcontr
        obtain ⟨u, hu, hmu⟩ := List.mem_flatMap.mp hm
        have hfile : h.file = u.path := hunksFor_file u.path _ u.hunks 0 h hmu
        have heq : h.file = s.path := beq_iff_eq.mp hcontr
        apply hnd.1
        rw [← heq, hfile]
        exact List.mem_map_of_mem (fun x => x.path) hu
    · have hwfrest : WfDiff rest := ⟨fun x hx => hwf.1 x (List.mem_cons_of_mem t hx), hnd.2⟩
      have hihr := ih hwfrest s hs
      unfold expectedDiff at hihr
      rw [hihr, List.filter_eq_nil_iff.mpr ?htpart, List.nil_append]
      case htpart =>
        intro h hm hcontr
        have hfile : h.file = t.path := hunksFor_file t.path _ t.hunks 0 h hm
        have heq : h.file = s.path := beq_iff_eq.mp hcontr
        apply hnd.1
        rw [← hfile, heq]
        exact List.mem_map_of_mem (fun x => x.path) hs

theorem buildPatch_reverse_single {l : List DiffHunk} {p : String}
    (hall : ∀ h ∈ l, h.file = p) (hnd : (l.map (fun h => h.hunkIndex)).Nodup) :
    buildPatchFromHunks l.reverse = buildPatchFromHunks l := by
  cases hl : l with
  | nil => rfl
  | cons h t =>
    subst hl
    unfold buildPatchFromHunks
    rw [if_neg (show ¬(h :: t).reverse = [] from by simp),
      if_neg (List.cons_ne_nil h t),
      groupByFile_single (List.cons_ne_nil h t) hall,
      groupByFile_single (show (h :: t).reverse ≠ [] from by simp)
        (fun x hx => hall x (List.mem_reverse.mp hx))]
    simp only [List.flatMap_cons, List.flatMap_nil, List.append_nil]
    rw [sortHunks_reverse hnd]

/-! ## Zero-hunk diffs (claim C7) -/

theorem foldl_no_at : ∀ (lines : List String), (∀ l ∈ lines, jsStartsWith l "@@" = false) →
    ∀ st : ParseState, st.hunks = [] → st.currentHunkLines = [] → st.inHunk = false →
      (lines.foldl stepLine st).hunks = [] ∧ (lines.foldl stepLine st).currentHunkLines = []
        ∧ (lines.foldl stepLine st).inHunk = false := by
  intro lines
  induction lines with
  | nil => intro _ st h1 h2 h3; exact ⟨h1, h2, h3⟩
  | cons l rest ih =>
    intro hall st h1 h2 h3
    rw [List.foldl_cons]
    have hat := hall l (List.mem_cons_self l rest)
    have hstep : (stepLine st l).hunks = [] ∧ (stepLine st l).currentHunkLines = []
        ∧ (stepLine st l).inHunk = false := by
      by_cases hdg : jsStartsWith l "diff --git " = true
      · rw [stepLine_dg st l hdg]
        refine ⟨?_, rfl, rfl⟩
        show (flushHunk st).hunks = []
        rw [flushHunk_hunks_of_empty st h2]
        exact h1
      · have hdg' : jsStartsWith l "diff --git " = false := by
          revert hdg
          cases jsStartsWith l "diff --git " <;> simp
        by_cases hfh : isFileHeaderLine l = true
        · rw [stepLine_header st l hdg' h3 hfh]
          exact ⟨h1, h2, h3⟩
        · rw [show stepLine st l = st from by simp [stepLine, hdg', hat, h3, hfh]]
          exact ⟨h1, h2, h3⟩
    exact ih (fun x hx => hall x (List.mem_cons_of_mem l hx)) (stepLine st l)
      hstep.1 hstep.2.1 hstep.2.2

theorem parseDiffLines_no_at {lines : List String}
    (h : ∀ l ∈ lines, jsStartsWith l "@@" = false) : parseDiffLines lines = [] := by
  unfold parseDiffLines
  obtain ⟨h1, h2, _⟩ := foldl_no_at lines h initParseState rfl rfl rfl
  rw [flushHunk_hunks_of_empty _ h2]
  exact h1

theorem stInv_flush {st : ParseState} (hinv : StInv st) :
    ∀ h ∈ (flushHunk st).hunks, ContentInv h := by
  intro h hm
  by_cases hpend : st.currentHunkLines ≠ [] ∧ st.currentFile ≠ ""
  · rw [flushHunk_hunks_of_pending st hpend.1 hpend.2] at hm
    rcases List.mem_append.mp hm with hm | hm
    · exact hinv.1 h hm
    · rcases List.mem_singleton.mp hm with rfl
      rcases hinv.2.1 with hlines | ⟨hhead, hat⟩
      · exact absurd hlines hpend.1
      · exact ⟨hpend.1, hhead, hat⟩
  · rw [show (flushHunk st).hunks = st.hunks from by simp [flushHunk, hpend]] at hm
    exact hinv.1 h hm

theorem stInv_step {st : ParseState} (l : String) (hinv : StInv st) :
    StInv (stepLine st l) := by
  by_cases hdg : jsStartsWith l "diff --git " = true
  · rw [stepLine_dg st l hdg]
    exact ⟨stInv_flush hinv, Or.inl rfl, by simp⟩
  · have hdg' : jsStartsWith l "diff --git " = false := by
      revert hdg
      cases jsStartsWith l "diff --git " <;> simp
    by_cases hhdr : st.inHunk = false ∧ isFileHeaderLine l = true
    · rw [show stepLine st l = { st with currentFileHeader := st.currentFileHeader ++ [l] }
        from by simp [stepLine, hdg', hhdr]]
      exact ⟨hinv.1, hinv.2.1, hinv.2.2⟩
    · by_cases hat : jsStartsWith l "@@" = true
      · rw [stepLine_at st l hdg' hhdr hat]
        exact ⟨stInv_flush hinv, Or.inr ⟨rfl, hat⟩, by simp⟩
      · have hat' : jsStartsWith l "@@" = false := by
          revert hat
          cases jsStartsWith l "@@" <;> simp
        by_cases hin : st.inHunk = true
        · rw [stepLine_content st l hdg' hat' hin]
          refine ⟨hinv.1, ?_, by simp⟩
          right
          have hne := hinv.2.2 hin
          rcases hinv.2.1 with hlines | ⟨hhead, hath⟩
          · exact absurd hlines hne
          · constructor
            · cases hcase : st.currentHunkLines with
              | nil => exact absurd hcase hne
              | cons x xs =>
                rw [hcase] at hhead
                simpa using hhead
            · exact hath
        · have hinf : st.inHunk = false := by
            revert hin
            cases st.inHunk <;> simp
          have hfh : isFileHeaderLine l = false := by
            by_contra hcontr
            exact hhdr ⟨hinf, by revert hcontr; cases isFileHeaderLine l <;> simp⟩
          rw [show stepLine st l = st from by simp [stepLine, hdg', hat', hinf, hfh]]
          exact hinv

theorem stInv_foldl : ∀ (lines : List String) (st : ParseState), StInv st →
    StInv (lines.foldl stepLine st) := by
  intro lines
  induction lines with
  | nil => intro st h; exact h
  | cons l rest ih => intro st h; exact ih (stepLine st l) (stInv_step l h)

theorem parseDiffLines_contentInv (lines : List String) :
    ∀ h ∈ parseDiffLines lines, ContentInv h := by
  have hinv : StInv (lines.foldl stepLine initParseState) :=
    stInv_foldl lines initParseState ⟨by simp [initParseState], Or.inl rfl, by simp [initParseState]⟩
  exact stInv_flush hinv

/-! ## Transactional apply lemmas -/

theorem commitLoop_skip (env : GitEnv) (hunks : List DiffHunk) (g : HunkCommitGroup)
    (rest : List HunkCommitGroup) (st : LoopState)
    (hempty : g.hunkIds.filterMap (lookupHunk hunks) = []) :
    commitLoop env hunks (g :: rest) st
      = commitLoop env hunks rest { st with skipped := st.skipped + 1 } := by
  simp only [commitLoop]
  rw [if_pos hempty]

theorem commitLoop_apply_fail {env : GitEnv} {hunks : List DiffHunk} {g : HunkCommitGroup}
    {rest : List HunkCommitGroup} {st stA : LoopState}
    (hempty : ¬g.hunkIds.filterMap (lookupHunk hunks) = [])
    (har : applyPatchStep env st
      (buildPatchFromHunks (g.hunkIds.filterMap (lookupHunk hunks))) = (stA, false)) :
    commitLoop env hunks (g :: rest) st = (stA, false) := by
  simp only [commitLoop]
  rw [if_neg hempty, har]
  simp

theorem commitLoop_commit_fail {env : GitEnv} {hunks : List DiffHunk} {g : HunkCommitGroup}
    {rest : List HunkCommitGroup} {st stA stC : LoopState}
    (hempty : ¬g.hunkIds.filterMap (lookupHunk hunks) = [])
    (har : applyPatchStep env st
      (buildPatchFromHunks (g.hunkIds.filterMap (lookupHunk hunks))) = (stA, true))
    (hcr : commitStep env stA g.message = (stC, false)) :
    commitLoop env hunks (g :: rest) st = (stC, false) := by
  simp only [commitLoop]
  rw [if_neg hempty, har]
  simp [hcr]

theorem commitLoop_step_ok {env : GitEnv} {hunks : List DiffHunk} {g : HunkCommitGroup}
    {rest : List HunkCommitGroup} {st stA stC : LoopState}
    (hempty : ¬g.hunkIds.filterMap (lookupHunk hunks) = [])
    (har : applyPatchStep env st
      (buildPatchFromHunks (g.hunkIds.filterMap (lookupHunk hunks))) = (stA, true))
    (hcr : commitStep env stA g.message = (stC, true)) :
    commitLoop env hunks (g :: rest) st = commitLoop env hunks rest stC := by
  simp only [commitLoop]
  rw [if_neg hempty, har]
  simp [hcr]

theorem applyPatchStep_cases (env : GitEnv) (st : LoopState) (patch : String) :
    applyPatchStep env st patch = (st, true) ∨
    applyPatchStep env st patch
      = ({ st with repo := { st.repo with staged := st.repo.staged ++ [patch] },
                   applyCalls := st.applyCalls + 1 }, true) ∨
    applyPatchStep env st patch = ({ st with applyCalls := st.applyCalls + 1 }, false) := by
  by_cases htrim : jsTrim patch = ""
  · exact Or.inl (by simp [applyPatchStep, htrim])
  · by_cases happly : env.applyOk st.applyCalls = true
    · exact Or.inr (Or.inl (by simp [applyPatchStep, htrim, happly]))
    · have happly' : env.applyOk st.applyCalls = false := by
        revert happly
        cases env.applyOk st.applyCalls <;> simp
      exact Or.inr (Or.inr (by simp [applyPatchStep, htrim, happly']))

theorem commitStep_cases (env : GitEnv) (st : LoopState) (message : String) :
    commitStep env st message
      = ({ st with repo := { commits := st.repo.commits ++ [message], staged := [] },
                   commitCalls := st.commitCalls + 1,
                   created := st.created + 1 }, true) ∨
    commitStep env st message = ({ st with commitCalls := st.commitCalls + 1 }, false) := by
  by_cases hcommit : env.commitOk st.commitCalls = true
  · exact Or.inl (by simp [commitStep, hcommit])
  · have hcommit' : env.commitOk st.commitCalls = false := by
      revert hcommit
      cases env.commitOk st.commitCalls <;> simp
    exact Or.inr (by simp [commitStep, hcommit'])

theorem commitLoop_commits_length (env : GitEnv) (hunks : List DiffHunk) :
    ∀ (groups : List HunkCommitGroup) (st : LoopState),
      (commitLoop env hunks groups st).1.repo.commits.length + st.created
        = st.repo.commits.length + (commitLoop env hunks groups st).1.created := by
  intro groups
  induction groups with
  | nil => intro st; rfl
  | cons g rest ih =>
    intro st
    by_cases hempty : g.hunkIds.filterMap (lookupHunk hunks) = []
    · rw [commitLoop_skip env hunks g rest st hempty]
      exact ih { st with skipped := st.skipped + 1 }
    · rcases applyPatchStep_cases env st
        (buildPatchFromHunks (g.hunkIds.filterMap (lookupHunk hunks))) with har | har | har
      all_goals first
      | (rw [commitLoop_apply_fail hempty har])
      | (rcases commitStep_cases env st g.message with hcr | hcr
         · rw [commitLoop_step_ok hempty har hcr]
           have hih := ih { st with
             repo := { commits := st.repo.commits ++ [g.message], staged := [] },
             commitCalls := st.commitCalls + 1,
             created := st.created + 1 }
           simp only [List.length_append, List.length_cons, List.length_nil] at hih ⊢
           omega
         · rw [commitLoop_commit_fail hempty har hcr])
      | (rcases commitStep_cases env { st with repo := { st.repo with staged := st.repo.staged ++ [buildPatchFromHunks (g.hunkIds.filterMap (lookupHunk hunks))] }, applyCalls := st.applyCalls + 1 } g.message with hcr | hcr
         · rw [commitLoop_step_ok hempty har hcr]
           have hih := ih { st with
             repo := { commits := st.repo.commits ++ [g.message], staged := [] },
             applyCalls := st.applyCalls + 1,
             commitCalls := st.commitCalls + 1,
             created := st.created + 1 }
           simp only [List.length_append, List.length_cons, List.length_nil] at hih ⊢
           omega
         · rw [commitLoop_commit_fail hempty har hcr])

theorem commitLoop_all_ok (env : GitEnv) (hunks : List DiffHunk)
    (happly : ∀ i, env.applyOk i = true) (hcommit : ∀ i, env.commitOk i = true) :
    ∀ (groups : List HunkCommitGroup) (st : LoopState),
      (commitLoop env hunks groups st).2 = true ∧
      (commitLoop env hunks groups st).1.created = st.created
        + groups.countP (fun g => !((g.hunkIds.filterMap (lookupHunk hunks)).isEmpty)) := by
  intro groups
  induction groups with
  | nil => intro st; exact ⟨rfl, by simp [commitLoop]⟩
  | cons g rest ih =>
    intro st
    by_cases hempty : g.hunkIds.filterMap (lookupHunk hunks) = []
    · rw [commitLoop_skip env hunks g rest st hempty]
      obtain ⟨h1, h2⟩ := ih { st with skipped := st.skipped + 1 }
      refine ⟨h1, ?_⟩
      rw [h2]
      simp [List.countP_cons, hempty]
    · have hcnt : (g.hunkIds.filterMap (lookupHunk hunks)).isEmpty = false := by
        cases hcase : g.hunkIds.filterMap (lookupHunk hunks) with
        | nil => exact absurd hcase hempty
        | cons x xs => simp
      by_cases htrim : jsTrim (buildPatchFromHunks (g.hunkIds.filterMap (lookupHunk hunks))) = ""
      · have har : applyPatchStep env st
            (buildPatchFromHunks (g.hunkIds.filterMap (lookupHunk hunks))) = (st, true) := by
          simp [applyPatchStep, htrim]
        have hcr : commitStep env st g.message
            = ({ st with repo := { commits := st.repo.commits ++ [g.message], staged := [] },
                         commitCalls := st.commitCalls + 1,
                         created := st.created + 1 }, true) := by
          simp [commitStep, hcommit st.commitCalls]
        rw [commitLoop_step_ok hempty har hcr]
        obtain ⟨h1, h2⟩ := ih { st with
          repo := { commits := st.repo.commits ++ [g.message], staged := [] },
          commitCalls := st.commitCalls + 1,
          created := st.created + 1 }
        refine ⟨h1, ?_⟩
        rw [h2]
        simp [List.countP_cons, hcnt]
        omega
      · have har : applyPatchStep env st (buildPatchFromHunks (g.hunkIds.filterMap (lookupHunk hunks))) = ({ st with repo := { st.repo with staged := st.repo.staged ++ [buildPatchFromHunks (g.hunkIds.filterMap (lookupHunk hunks))] }, applyCalls := st.applyCalls + 1 }, true) := by
          simp [applyPatchStep, htrim, happly st.applyCalls]
        have hcr : commitStep env { st with repo := { st.repo with staged := st.repo.staged ++ [buildPatchFromHunks (g.hunkIds.filterMap (lookupHunk hunks))] }, applyCalls := st.applyCalls + 1 } g.message = ({ st with repo := { commits := st.repo.commits ++ [g.message], staged := [] }, applyCalls := st.applyCalls + 1, commitCalls := st.commitCalls + 1, created := st.created + 1 }, true) := by
          simp [commitStep, hcommit st.commitCalls]
        rw [commitLoop_step_ok hempty har hcr]
        obtain ⟨h1, h2⟩ := ih { st with
          repo := { commits := st.repo.commits ++ [g.message], staged := [] },
          applyCalls := st.applyCalls + 1,
          commitCalls := st.commitCalls + 1,
          created := st.created + 1 }
        refine ⟨h1, ?_⟩
        rw [h2]
        simp [List.countP_cons, hcnt]
        omega

/-! ## Oracle client lemmas -/

theorem appendToLastGroup_eq (extra : List String) :
    ∀ (groups : List CommitGroup) (h : groups ≠ []),
      appendToLastGroup extra groups
        = groups.dropLast
          ++ [{ groups.getLast h with files := (groups.getLast h).files ++ extra }] := by
  intro groups
  induction groups with
  | nil => intro h; exact absurd rfl h
  | cons g rest ih =>
    intro h
    cases rest with
    | nil => simp [appendToLastGroup, List.getLast_singleton]
    | cons g₂ rest₂ =>
      rw [show appendToLastGroup extra (g :: g₂ :: rest₂)
          = g :: appendToLastGroup extra (g₂ :: rest₂) from rfl,
        ih (List.cons_ne_nil g₂ rest₂), List.dropLast_cons₂,
        List.getLast_cons (List.cons_ne_nil g₂ rest₂)]
      simp

theorem appendToLastGroup_mem (extra : List String) :
    ∀ (groups : List CommitGroup) (g : CommitGroup), g ∈ groups →
      ∃ g' ∈ appendToLastGroup extra groups, ∀ x ∈ g.files, x ∈ g'.files := by
  intro groups
  induction groups with
  | nil => intro g hg; simp at hg
  | cons g₀ rest ih =>
    intro g hg
    cases rest with
    | nil =>
      rcases List.mem_singleton.mp hg with rfl
      exact ⟨{ g with files := g.files ++ extra }, List.mem_singleton.mpr rfl,
        fun x hx => List.mem_append.mpr (Or.inl hx)⟩
    | cons g₂ rest₂ =>
      rcases List.mem_cons.mp hg with rfl | hg
      · exact ⟨g, List.mem_cons_self g _, fun x hx => hx⟩
      · obtain ⟨g', hg', hsub⟩ := ih g hg
        exact ⟨g', List.mem_cons_of_mem g₀ hg', hsub⟩

theorem appendToLastGroup_extra_mem (extra : List String) :
    ∀ (groups : List CommitGroup), groups ≠ [] → ∀ x ∈ extra,
      ∃ g' ∈ appendToLastGroup extra groups, x ∈ g'.files := by
  intro groups
  induction groups with
  | nil => intro h; exact absurd rfl h
  | cons g₀ rest ih =>
    intro _ x hx
    cases rest with
    | nil =>
      exact ⟨{ g₀ with files := g₀.files ++ extra }, List.mem_singleton.mpr rfl,
        List.mem_append.mpr (Or.inr hx)⟩
    | cons g₂ rest₂ =>
      obtain ⟨g', hg', hxg⟩ := ih (List.cons_ne_nil g₂ rest₂) x hx
      exact ⟨g', List.mem_cons_of_mem g₀ hg', hxg⟩

theorem appendToLastGroup_ne_nil (extra : List String) {groups : List CommitGroup}
    (h : groups ≠ []) : appendToLastGroup extra groups ≠ [] := by
  rw [appendToLastGroup_eq extra groups h]
  simp

theorem repairGroups_covers (files : List String) (groups : List CommitGroup)
    (hne : groups ≠ []) : ∀ f ∈ files, ∃ g ∈ repairGroups files groups, f ∈ g.files := by
  intro f hf
  simp only [repairGroups]
  by_cases hmiss :
      files.filter (fun x => !((groups.flatMap (fun g => g.files)).contains x)) = []
  · rw [if_pos hmiss]
    have hpred := List.filter_eq_nil_iff.mp hmiss f hf
    have hcont : (groups.flatMap (fun g => g.files)).contains f = true := by
      revert hpred
      cases (groups.flatMap (fun g => g.files)).contains f <;> simp
    have hfmem : f ∈ groups.flatMap (fun g => g.files) := by
      simpa [List.contains] using hcont
    obtain ⟨g, hg, hfg⟩ := List.mem_flatMap.mp hfmem
    exact ⟨g, hg, hfg⟩
  · rw [if_neg hmiss]
    by_cases hcont : (groups.flatMap (fun g => g.files)).contains f = true
    · have hfmem : f ∈ groups.flatMap (fun g => g.files) := by
        simpa [List.contains] using hcont
      obtain ⟨g, hg, hfg⟩ := List.mem_flatMap.mp hfmem
      obtain ⟨g', hg', hsub⟩ := appendToLastGroup_mem _ groups g hg
      exact ⟨g', hg', hsub f hfg⟩
    · have hmem : f ∈ files.filter
          (fun x => !((groups.flatMap (fun g => g.files)).contains x)) := by
        apply List.mem_filter.mpr
        refine ⟨hf, ?_⟩
        revert hcont
        cases (groups.flatMap (fun g => g.files)).contains f <;> simp
      exact appendToLastGroup_extra_mem _ groups hne f hmem

theorem repairGroups_ne_nil (files : List String) {groups : List CommitGroup}
    (hne : groups ≠ []) : repairGroups files groups ≠ [] := by
  simp only [repairGroups]
  by_cases hmiss :
      files.filter (fun x => !((groups.flatMap (fun g => g.files)).contains x)) = []
  · rw [if_pos hmiss]; exact hne
  · rw [if_neg hmiss]; exact appendToLastGroup_ne_nil _ hne

theorem keepGroupItem_none_iff (j : Json) : keepGroupItem j = none ↔ usableElem j = false := by
  unfold keepGroupItem usableElem
  cases hf : j.getProp "files" with
  | none => simp
  | some jf =>
    cases jf with
    | null => simp
    | bool b => simp
    | num n => simp
    | str s => simp
    | obj o => simp
    | arr fs =>
      cases hm : j.getProp "message" with
      | none => simp
      | some jm =>
        cases jm with
        | null => simp
        | bool b => simp
        | num n => simp
        | arr l => simp
        | obj o => simp
        | str m =>
          by_cases hc : 0 < fs.length ∧ jsTrim m ≠ ""
          · simp [hc.1, hc.2]
          · simp only [not_and_or] at hc
            rcases hc with hc | hc <;> simp [hc]

theorem filterMap_keep_eq_nil_iff (items : List Json) :
    items.filterMap keepGroupItem = [] ↔ items.filter usableElem = [] := by
  rw [List.filterMap_eq_nil_iff, List.filter_eq_nil_iff]
  constructor <;> intro h a ha
  · have hnone := h a ha
    rw [keepGroupItem_none_iff] at hnone
    simp [hnone]
  · have hus := h a ha
    rw [keepGroupItem_none_iff]
    revert hus
    cases usableElem a <;> simp

theorem jsTrim_of_all_ws {s : String} (h : ∀ c ∈ chars s, c.isWhitespace = true) :
    jsTrim s = "" := by
  unfold jsTrim
  rw [List.dropWhile_eq_nil_iff.mpr h]
  rfl

theorem parseCommitGroups_ne_nil {c : Option Json} {groups : List CommitGroup}
    (h : parseCommitGroups c = some groups) : groups ≠ [] := by
  unfold parseCommitGroups at h
  cases c with
  | none => simp at h
  | some j =>
    cases j with
    | arr items =>
      have h' : (if items.filterMap keepGroupItem = [] then none
          else some (items.filterMap keepGroupItem)) = some groups := h
      by_cases hnil : items.filterMap keepGroupItem = []
      · rw [if_pos hnil] at h'
        simp at h'
      · rw [if_neg hnil] at h'
        rw [← Option.some.inj h']
        exact hnil
    | null => simp at h
    | bool b => simp at h
    | num n => simp at h
    | str s => simp at h
    | obj o => simp at h

/-! ## Claim theorems -/

/-- Claim C2 (counterexample): `buildPatchFromHunks` is not order-independent
on lists spanning multiple files — reversing a two-file hunk list moves the
second file's block first, changing the output text. -/
theorem claim_C2_counterexample :
    buildPatchFromHunks [cxA, cxB] ≠ buildPatchFromHunks (List.reverse [cxA, cxB]) := by
  decide

/-- Claim C2 (amended): when all units belong to one file and their recorded
sequence indices are pairwise distinct, `buildPatchFromHunks` applied to the
list and to its reversal produce identical output text. -/
theorem claim_C2_amended (l : List DiffHunk) (p : String)
    (hall : ∀ h ∈ l, h.file = p) (hnd : (l.map (fun h => h.hunkIndex)).Nodup) :
    buildPatchFromHunks l = buildPatchFromHunks l.reverse :=
  (buildPatch_reverse_single hall hnd).symm

/-- Claim C2 witness: the amended statement evaluated on a concrete
single-file two-hunk list. -/
theorem claim_C2_witness :
    buildPatchFromHunks [cxA, cxA2] = buildPatchFromHunks (List.reverse [cxA, cxA2]) :=
  claim_C2_amended [cxA, cxA2] "a" (by decide) (by decide)

/-- Claim C6: for every valid unified diff (rendered from well-formed file
sections with distinct paths), building a patch from the parsed units
restricted to any single file reproduces exactly that file's per-file diff
content, with the shared file header emitted once, terminated by a newline. -/
theorem claim_C6_roundtrip (ss : List SrcFile) (hwf : WfDiff ss) (s : SrcFile) (hs : s ∈ ss) :
    buildPatchFromHunks ((parseDiffHunks (renderDiff ss)).filter (fun h => h.file == s.path))
      = renderFileDiff s ++ "\n" := by
  have hne : ss ≠ [] := by
    intro hc
    subst hc
    simp at hs
  rw [parseDiffHunks_renderDiff hwf hne, filter_expectedDiff ss hwf s hs]
  exact buildPatch_expectedHunks (hwf.1 s hs)

/-- Claim C6 witness: the round-trip equality evaluated on a concrete
two-file diff, restricted to its first file. -/
theorem claim_C6_witness :
    buildPatchFromHunks ((parseDiffHunks (renderDiff [sA, sB])).filter
        (fun h => h.file == sA.path))
      = renderFileDiff sA ++ "\n" :=
  claim_C6_roundtrip [sA, sB] (by decide) sA (by decide)

/-- Claim C7: parsing the empty string yields no units, building from the
empty list yields the empty string, and any diff text none of whose lines
begins with `@@` (binary or mode-only entries) parses to no units; all three
are total computations, not errors. -/
theorem claim_C7_empty_inputs :
    parseDiffHunks "" = [] ∧ buildPatchFromHunks [] = "" ∧
    ∀ diff : String, (∀ l ∈ splitLines diff, jsStartsWith l "@@" = false) →
      parseDiffHunks diff = [] := by
  refine ⟨by decide, rfl, ?_⟩
  intro diff h
  exact parseDiffLines_no_at h

/-- Claim C7 witness: the zero-hunk case evaluated on a concrete mode-only
diff entry. -/
theorem claim_C7_witness :
    parseDiffHunks "diff --git a/f b/f\nold mode 100644\nnew mode 100755" = [] :=
  claim_C7_empty_inputs.2.2 "diff --git a/f b/f\nold mode 100644\nnew mode 100755" (by decide)

/-- Claim C8 (counterexample): on a raw diff text that introduces the same
file path with two separate file header lines, the per-file sequence indices
of that file's units are [1, 1], not the claimed [1, 2]. -/
theorem claim_C8_counterexample :
    ((parseDiffHunks dupDiff).filter (fun h => h.file == "f")).length = 2 ∧
    ((parseDiffHunks dupDiff).filter (fun h => h.file == "f")).map (fun h => h.hunkIndex)
      = [1, 1] ∧
    ((parseDiffHunks dupDiff).filter (fun h => h.file == "f")).map (fun h => h.hunkIndex)
      ≠ [1, 2] := by
  decide

/-- Claim C8 (amended): for every raw diff text, every parsed unit has
non-empty content whose first element is the unit's own `@@` range-header
line; and on a valid diff in which each file path is introduced by exactly
one file header line, the per-file sequence indices of each file's units are
1, 2, ... in order. -/
theorem claim_C8_amended :
    (∀ (diff : String), ∀ h ∈ parseDiffHunks diff,
      h.content ≠ [] ∧ h.content.head? = some h.header ∧
        jsStartsWith h.header "@@" = true) ∧
    (∀ (ss : List SrcFile), WfDiff ss → ∀ s ∈ ss,
      ((parseDiffHunks (renderDiff ss)).filter (fun h => h.file == s.path)).map
          (fun h => h.hunkIndex) = List.range' 1 s.hunks.length) := by
  constructor
  · intro diff h hm
    exact parseDiffLines_contentInv (splitLines diff) h hm
  · intro ss hwf s hs
    have hne : ss ≠ [] := by
      intro hc
      subst hc
      simp at hs
    rw [parseDiffHunks_renderDiff hwf hne, filter_expectedDiff ss hwf s hs]
    exact hunksFor_indices s.path (dgLine s.path :: s.headerTail) s.hunks 0

/-- Claim C8 witness: both amended parts evaluated on concrete diffs. -/
theorem claim_C8_witness :
    ((parseDiffHunks (renderDiff [sA, sB])).filter (fun h => h.file == sA.path)).map
        (fun h => h.hunkIndex) = List.range' 1 2 :=
  claim_C8_amended.2 [sA, sB] (by decide) sA (by decide)

/-- Claim C1: if the apply phase fails after at least one commit was created,
a rollback is issued; when the reset operation succeeds the repository is
restored exactly to the pre-operation checkpoint (original commit history,
empty staging area), and without a successful reset exactly the N created
commits would remain; if the failure occurs before any commit was created, no
rollback operation is issued. -/
theorem claim_C1_atomic_rollback (env : GitEnv) (hunks : List DiffHunk)
    (groups : List HunkCommitGroup) (r0 : RepoState) (n : Nat) (ri rs : Bool)
    (hout : (runSplitHunksApply env hunks groups r0).outcome = SplitOutcome.failed n ri rs) :
    (1 ≤ n → ri = true ∧
      (env.resetOk = true →
        (runSplitHunksApply env hunks groups r0).repo
          = { commits := r0.commits, staged := [] }) ∧
      (env.resetOk = false →
        (runSplitHunksApply env hunks groups r0).repo.commits.length
          = r0.commits.length + n)) ∧
    (n = 0 → ri = false) := by
  have hlen := commitLoop_commits_length env hunks groups
    { repo := r0, created := 0, applyCalls := 0, commitCalls := 0, skipped := 0 }
  simp only [runSplitHunksApply] at hout ⊢
  by_cases h2 : (commitLoop env hunks groups
      { repo := r0, created := 0, applyCalls := 0, commitCalls := 0, skipped := 0 }).2 = true
  · rw [if_pos h2] at hout
    simp at hout
  · rw [if_neg h2] at hout ⊢
    by_cases hcr : 0 < (commitLoop env hunks groups
        { repo := r0, created := 0, applyCalls := 0, commitCalls := 0, skipped := 0 }).1.created
    · rw [if_pos hcr] at hout ⊢
      by_cases hrok : env.resetOk = true
      · rw [if_pos hrok] at hout ⊢
        simp only [SplitOutcome.failed.injEq] at hout
        obtain ⟨hn, hri, hrs⟩ := hout
        refine ⟨fun _ => ⟨hri.symm, fun _ => rfl, fun hfalse => ?_⟩, fun hn0 => ?_⟩
        · rw [hrok] at hfalse
          cases hfalse
        · omega
      · rw [if_neg hrok] at hout ⊢
        simp only [SplitOutcome.failed.injEq] at hout
        obtain ⟨hn, hri, hrs⟩ := hout
        refine ⟨fun _ => ⟨hri.symm, fun htrue => absurd htrue hrok, fun _ => ?_⟩,
          fun hn0 => ?_⟩
        · dsimp only
          rw [hn] at hlen
          dsimp only at hlen
          omega
        · omega
    · rw [if_neg hcr] at hout ⊢
      simp only [SplitOutcome.failed.injEq] at hout
      obtain ⟨hn, hri, hrs⟩ := hout
      exact ⟨fun h1 => by omega, fun _ => hri.symm⟩

/-- Claim C1 witness: three groups over distinct files, the second external
apply call fails after one commit; the checkpoint is restored and the
outcome records one created-then-rolled-back commit. -/
theorem claim_C1_witness :
    (1 : Nat) ≤ 1 ∧
    (runSplitHunksApply cEnvFail2 [cxA, cxB, cxC] cGroups3 cRepo0).repo
      = { commits := ["c0"], staged := [] } := by
  have h := claim_C1_atomic_rollback cEnvFail2 [cxA, cxB, cxC] cGroups3 cRepo0 1 true true
    (by decide)
  exact ⟨by decide, (h.1 (by decide)).2.1 rfl⟩

/-- Claim C9: a group's unknown unit identifiers are dropped by the hunk-map
lookup; a group with no known identifiers is skipped with a warning and the
loop continues on the unchanged state, and when every external operation
succeeds the whole run succeeds, creating exactly one commit per group that
has at least one known identifier — unknown identifiers alone never cause a
failure or rollback. -/
theorem claim_C9_unknown_ids :
    (∀ (env : GitEnv) (hunks : List DiffHunk) (g : HunkCommitGroup)
        (rest : List HunkCommitGroup) (st : LoopState),
      (∀ id ∈ g.hunkIds, lookupHunk hunks id = none) →
      commitLoop env hunks (g :: rest) st
        = commitLoop env hunks rest { st with skipped := st.skipped + 1 }) ∧
    (∀ (env : GitEnv) (hunks : List DiffHunk) (groups : List HunkCommitGroup)
        (r0 : RepoState),
      (∀ i, env.applyOk i = true) → (∀ i, env.commitOk i = true) →
      (runSplitHunksApply env hunks groups r0).outcome
        = SplitOutcome.ok (groups.countP
            (fun g => !((g.hunkIds.filterMap (lookupHunk hunks)).isEmpty)))) := by
  constructor
  · intro env hunks g rest st hnone
    exact commitLoop_skip env hunks g rest st (List.filterMap_eq_nil_iff.mpr hnone)
  · intro env hunks groups r0 happly hcommit
    obtain ⟨h2, hcreated⟩ := commitLoop_all_ok env hunks happly hcommit groups
      { repo := r0, created := 0, applyCalls := 0, commitCalls := 0, skipped := 0 }
    simp only [runSplitHunksApply]
    rw [if_pos h2]
    simp [hcreated]

/-- Claim C9 witness: a run whose first group has only an unknown identifier
is skipped and the remaining group still commits, with no failure. -/
theorem claim_C9_witness :
    commitLoop cEnvOk [cxA] [{ hunkIds := ["zzz:9"], message := "m0" }] cSt0
      = commitLoop cEnvOk [cxA] [] { cSt0 with skipped := cSt0.skipped + 1 } ∧
    (runSplitHunksApply cEnvOk [cxA]
        [{ hunkIds := ["zzz:9"], message := "m0" }, { hunkIds := ["a:1"], message := "m1" }]
        cRepo0).outcome = SplitOutcome.ok 1 := by
  constructor
  · exact claim_C9_unknown_ids.1 cEnvOk [cxA] { hunkIds := ["zzz:9"], message := "m0" } []
      cSt0 (by decide)
  · have h := claim_C9_unknown_ids.2 cEnvOk [cxA]
      [{ hunkIds := ["zzz:9"], message := "m0" }, { hunkIds := ["a:1"], message := "m1" }]
      cRepo0 (fun _ => rfl) (fun _ => rfl)
    rw [h]
    decide

/-- Claim C10: applying a patch that is empty or contains only whitespace is
a no-op: the step reports success, issues no external apply call, and leaves
the repository (in particular the staging area) unchanged. -/
theorem claim_C10_empty_patch (env : GitEnv) (st : LoopState) (patch : String)
    (hws : ∀ c ∈ chars patch, c.isWhitespace = true) :
    applyPatchStep env st patch = (st, true) := by
  have htrim : jsTrim patch = "" := jsTrim_of_all_ws hws
  simp [applyPatchStep, htrim]

/-- Claim C10 witness: a whitespace-only patch applied in a concrete state. -/
theorem claim_C10_witness : applyPatchStep cEnvOk cSt0 "  \n\t " = (cSt0, true) :=
  claim_C10_empty_patch cEnvOk cSt0 "  \n\t " (by decide)

/-- Claim C3 (counterexample): the client keeps duplicate assignments (`a`
appears in both accepted groups — the first assignment does not win) and
keeps identifiers outside the input set (`c`), so the accepted groups neither
partition nor exactly cover the input identifier set. -/
theorem claim_C3_counterexample :
    generateCommitGroups true (some oracleDup) ["a", "b"]
      = Except.ok [{ files := ["a", "c"], message := "m1" },
                   { files := ["a", "b"], message := "m2" }] ∧
    "a" ∈ (["a", "c"] : List String) ∧ "a" ∈ (["a", "b"] : List String) ∧
    "c" ∉ (["a", "b"] : List String) := by
  exact ⟨rfl, by decide, by decide, by decide⟩

/-- Claim C3 (amended): for every accepted grouping result, every input
identifier belongs to at least one repaired group (the union of the groups
covers the input set); duplicates and out-of-catalog identifiers are kept as
the oracle emitted them. -/
theorem claim_C3_amended (ok : Bool) (content : Option Json) (files : List String)
    (gs : List CommitGroup) (hok : generateCommitGroups ok content files = Except.ok gs) :
    ∀ f ∈ files, ∃ g ∈ gs, f ∈ g.files := by
  unfold generateCommitGroups at hok
  by_cases hokb : ok = false
  · rw [if_pos hokb] at hok
    simp at hok
  · rw [if_neg hokb] at hok
    cases hparse : parseCommitGroups content with
    | none =>
      rw [hparse] at hok
      simp at hok
    | some groups =>
      rw [hparse] at hok
      have hgs : repairGroups files groups = gs := by simpa using hok
      rw [← hgs]
      exact repairGroups_covers files groups (parseCommitGroups_ne_nil hparse)

/-- Claim C3 witness: the amended coverage statement evaluated on a concrete
under-covering oracle response. -/
theorem claim_C3_witness :
    ∃ g ∈ ([{ files := ["a", "b"], message := "m" }] : List CommitGroup), "b" ∈ g.files :=
  claim_C3_amended true (some oracleUnder) ["a", "b"]
    [{ files := ["a", "b"], message := "m" }] (by decide) "b" (by decide)

/-- Claim C4: when a parsed non-empty group list under-covers the input
identifier set, the repair appends exactly the missing identifiers to the
last group, leaves every other group unchanged, and the client returns the
repaired groups successfully rather than failing. -/
theorem claim_C4_undercoverage_repair (files : List String) (groups : List CommitGroup)
    (hne : groups ≠ [])
    (hmiss : files.filter (fun f => !((groups.flatMap (fun g => g.files)).contains f)) ≠ []) :
    repairGroups files groups
      = groups.dropLast ++ [{ groups.getLast hne with
          files := (groups.getLast hne).files
            ++ files.filter (fun f => !((groups.flatMap (fun g => g.files)).contains f)) }] ∧
    ∀ (content : Option Json), parseCommitGroups content = some groups →
      generateCommitGroups true content files = Except.ok (repairGroups files groups) := by
  constructor
  · simp only [repairGroups]
    rw [if_neg hmiss]
    exact appendToLastGroup_eq _ groups hne
  · intro content hparse
    unfold generateCommitGroups
    rw [if_neg (by simp), hparse]

/-- Claim C4 witness: the repair evaluated on a concrete under-covering
response with input identifiers `a` and `b`. -/
theorem claim_C4_witness :
    repairGroups ["a", "b"] [{ files := ["a"], message := "m" }]
      = [{ files := ["a", "b"], message := "m" }] ∧
    generateCommitGroups true (some oracleUnder) ["a", "b"]
      = Except.ok [{ files := ["a", "b"], message := "m" }] := by
  have h := claim_C4_undercoverage_repair ["a", "b"] [{ files := ["a"], message := "m" }]
    (by decide) (by decide)
  refine ⟨by rw [h.1]; rfl, ?_⟩
  have h2 := h.2 (some oracleUnder) rfl
  rw [h2, h.1]
  rfl

/-- Claim C5: the oracle client raises an error exactly when the call does
not succeed, the (fence-stripped) content does not parse as a list, or
discarding the unusable elements leaves zero usable groups; and a successful
result is never the empty group list. -/
theorem claim_C5_error_iff (ok : Bool) (content : Option Json) (files : List String) :
    (isOracleError (generateCommitGroups ok content files) = true ↔
      ok = false ∨ (∀ items, content ≠ some (Json.arr items)) ∨
        ∃ items, content = some (Json.arr items) ∧ items.filter usableElem = []) ∧
    (∀ gs, generateCommitGroups ok content files = Except.ok gs → gs ≠ []) := by
  by_cases hok : ok = false
  · constructor
    · constructor
      · intro _
        exact Or.inl hok
      · intro _
        unfold generateCommitGroups
        rw [if_pos hok]
        rfl
    · intro gs hgs
      unfold generateCommitGroups at hgs
      rw [if_pos hok] at hgs
      simp at hgs
  · have hgen : generateCommitGroups ok content files
        = match parseCommitGroups content with
          | none => Except.error "Failed to parse commit groups from AI response"
          | some groups => Except.ok (repairGroups files groups) := by
      unfold generateCommitGroups
      rw [if_neg hok]
    cases hpc : parseCommitGroups content with
    | none =>
      rw [hpc] at hgen
      constructor
      · constructor
        · intro _
          right
          cases content with
          | none => exact Or.inl (fun items => by simp)
          | some j =>
            cases j with
            | arr items =>
              right
              refine ⟨items, rfl, ?_⟩
              have h' : (if items.filterMap keepGroupItem = [] then none
                  else some (items.filterMap keepGroupItem))
                  = (none : Option (List CommitGroup)) := hpc
              by_cases hnil : items.filterMap keepGroupItem = []
              · exact (filterMap_keep_eq_nil_iff items).mp hnil
              · rw [if_neg hnil] at h'
                simp at h'
            | null => exact Or.inl (fun items => by simp)
            | bool b => exact Or.inl (fun items => by simp)
            | num n => exact Or.inl (fun items => by simp)
            | str s => exact Or.inl (fun items => by simp)
            | obj o => exact Or.inl (fun items => by simp)
        · intro _
          rw [hgen]
          rfl
      · intro gs hgs
        rw [hgen] at hgs
        simp at hgs
    | some groups =>
      rw [hpc] at hgen
      have hne := parseCommitGroups_ne_nil hpc
      constructor
      · constructor
        · intro hcontr
          rw [hgen] at hcontr
          simp [isOracleError] at hcontr
        · intro hdisj
          exfalso
          rcases hdisj with hfalse | hnotarr | ⟨items, heq, hfilter⟩
          · exact hok hfalse
          · cases content with
            | none => simp [parseCommitGroups] at hpc
            | some j =>
              cases j with
              | arr items => exact hnotarr items rfl
              | null => simp [parseCommitGroups] at hpc
              | bool b => simp [parseCommitGroups] at hpc
              | num n => simp [parseCommitGroups] at hpc
              | str s => simp [parseCommitGroups] at hpc
              | obj o => simp [parseCommitGroups] at hpc
          · subst heq
            have hnil := (filterMap_keep_eq_nil_iff items).mpr hfilter
            have h' : (if items.filterMap keepGroupItem = [] then none
                else some (items.filterMap keepGroupItem)) = some groups := hpc
            rw [if_pos hnil] at h'
            simp at h'
      · intro gs hgs
        rw [hgen] at hgs
        have hrep : repairGroups files groups = gs := by simpa using hgs
        rw [← hrep]
        exact repairGroups_ne_nil files hne

/-- Claim C5 witness: a response that parses as a list but yields zero usable
groups is reported as an error at a concrete input. -/
theorem claim_C5_witness :
    isOracleError (generateCommitGroups true (some (Json.arr [Json.num 3])) []) = true :=
  (claim_C5_error_iff true (some (Json.arr [Json.num 3])) []).1.mpr
    (Or.inr (Or.inr ⟨[Json.num 3], rfl, rfl⟩))

end Aicmt
